import Mathlib

/-!
Verification of the pybrainfuck core (`bf.py`): the incremental
validator (`BrainfuckParser.parse`) and the execution engine
(`BrainfuckInterpreter.exec`), shallowly embedded over lists of byte
values.  Python byte strings are `List Nat`, the mutable tape is a
`List Nat` threaded through an explicit configuration, Python
exception classes are the inductive `PyExc`, and the interpreter's
`while` loop is a fuel-indexed recursion whose fuel `max_ops + 1` is
exact because the operation-budget check bounds the iteration count.
-/

namespace PyBf

/-- Python exception classes raised by the parser and the interpreter. -/
inductive PyExc where
  | typeError
  | valueError
  | overflowError
  | indexError
  | runtimeError
  | eofError
  | syntaxError
deriving DecidableEq, Repr

/-- Membership test `token in (43, 45, 62, 60, 91, 93, 44, 46)` from
`BrainfuckParser.parse`: the eight operator bytes. -/
def isOpTok (t : Nat) : Bool :=
  t = 43 || t = 45 || t = 62 || t = 60 || t = 91 || t = 93 || t = 44 || t = 46

/-- One iteration of the token loop in `BrainfuckParser.parse`: non-operator
bytes are dropped; a `]` (93) fails if the buffer is empty, the carried
counter is zero, or the previous kept byte is `[` (91), and otherwise
decrements the counter; a `[` increments it; every kept byte is appended. -/
def parseTok (c : Nat) (buf : List Nat) (token : Nat) : Except Unit (Nat × List Nat) :=
  if !(isOpTok token) then .ok (c, buf)
  else if token = 93 then
    match buf.getLast? with
    | none => .error ()
    | some prev => if c = 0 || prev = 91 then .error () else .ok (c - 1, buf ++ [93])
  else if token = 91 then .ok (c + 1, buf ++ [91])
  else .ok (c, buf ++ [token])

/-- The token loop of `BrainfuckParser.parse` over a whole byte string. -/
def parseRun (c : Nat) (buf : List Nat) : List Nat → Except Unit (Nat × List Nat)
  | [] => .ok (c, buf)
  | t :: ts =>
    match parseTok c buf t with
    | .error e => .error e
    | .ok (c2, buf2) => parseRun c2 buf2 ts

/-- Persistent state of a `BrainfuckParser` instance: `self.level` and
`self.buffer` (`none` models Python's `None`). -/
structure ParserState where
  level : Nat
  buffer : Option (List Nat)
deriving DecidableEq, Repr

/-- State of a freshly constructed `BrainfuckParser`. -/
def freshParserState : ParserState := ⟨0, none⟩

/-- A call to `BrainfuckParser.parse` on an instance in state `st`:
runs the token loop starting from the retained counter and buffer; a
`SyntaxError` is `.error ()`; an incomplete result returns `none` and
retains counter and buffer; a complete result returns the buffer and
resets the instance state. -/
def parseCall (st : ParserState) (code : List Nat) :
    Except Unit (ParserState × Option (List Nat)) :=
  match parseRun st.level (st.buffer.getD []) code with
  | .error e => .error e
  | .ok (c, buf) =>
    if 0 < c then .ok (⟨c, some buf⟩, none) else .ok (⟨0, none⟩, some buf)

/-- One-shot parse `BrainfuckParser().parse(code)` (also `bf_parse`),
as performed at the top of `BrainfuckInterpreter.exec`. -/
def parseFresh (code : List Nat) : Except Unit (Option (List Nat)) :=
  match parseCall freshParserState code with
  | .error e => .error e
  | .ok (_, r) => .ok r

/-- Execution metrics returned by a successful `exec` call. -/
structure Metrics where
  value_ops_count : Nat
  pointer_ops_count : Nat
  io_ops_count : Nat
  jump_ops_count : Nat
  ops_count : Nat
deriving DecidableEq, Repr

/-- Configuration of the `while k < n` loop inside
`BrainfuckInterpreter.exec`: instruction index `k`, the tape `mem`,
the data pointer, the `goto` jump stack (head is the top, Python's
`deque` right end), the remaining input-stream bytes, the bytes
written to the output stream so far, and the five metric counters. -/
structure Cfg where
  k : Nat
  mem : List Nat
  ptr : Nat
  goto : List Nat
  inp : List Nat
  outp : List Nat
  vc : Nat
  pc : Nat
  ioc : Nat
  jc : Nat
  ops : Nat
deriving DecidableEq, Repr

/-- The loop-skip scan in the `instr == 91` branch of `exec`: starting
from index `k` (the source enters here with `k` already advanced to the
loop-start index plus two) it walks forward while `instr != 93 or c > 0`,
incrementing `c` on `[` and decrementing it on `]`, and returns the index
where it stops.  `none` models the `IndexError` Python raises at `code[k]`
when the scan runs past the end of the code; the fuel only bounds the
recursion and is never exhausted before the end of the code when `0 < k`. -/
def skipScan (code : List Nat) (k c fuel : Nat) : Option Nat :=
  match fuel with
  | 0 => none
  | fuel + 1 =>
    match code.get? k with
    | none => none
    | some instr =>
      if instr ≠ 93 ∨ 0 < c then
        skipScan code (k + 1) (if instr = 91 then c + 1 else if instr = 93 then c - 1 else c) fuel
      else some k

/-- Result of one iteration of the interpreter loop. -/
inductive StepRes where
  | halt
  | fail (e : PyExc) (g : Cfg)
  | next (g : Cfg)
deriving DecidableEq, Repr

/-- The metric-counter update at the top of every loop iteration of
`BrainfuckInterpreter.exec`: classify `instr` into one of the four metric
buckets, increment the matching counter, and increment the total counter.
Nothing else changes (the tape, pointer, stack and streams are untouched
by the bookkeeping phase). -/
def bump (instr : Nat) (g : Cfg) : Cfg :=
  { g with
    vc := g.vc + (if instr = 43 ∨ instr = 45 then 1 else 0)
    pc := g.pc + (if instr = 60 ∨ instr = 62 then 1 else 0)
    ioc := g.ioc + (if instr = 44 ∨ instr = 46 then 1 else 0)
    jc := g.jc + (if instr = 91 ∨ instr = 93 then 1 else 0)
    ops := g.ops + 1 }

/-- The two loop-operator branches (`instr == 91`, `instr == 93`) of the
dispatch in `BrainfuckInterpreter.exec`, plus the fall-through for a byte
matching no branch (the loop body then only performs `k += 1`; this is
unreachable for parsed code).  A `[` on a non-zero cell pushes `k`; on a
zero cell it runs the loop-skip scan (an `IndexError` if the scan runs off
the code).  A `]` reads the top of the jump stack (`IndexError` on an
empty deque), jumping back on a non-zero cell and popping otherwise. -/
def stepJump (code : List Nat) (instr : Nat) (g : Cfg) : StepRes :=
  if instr = 91 then
    if g.mem.getD g.ptr 0 ≠ 0 then .next { g with goto := g.k :: g.goto, k := g.k + 1 }
    else
      match skipScan code (g.k + 2) 0 code.length with
      | none => .fail .indexError g
      | some j => .next { g with k := j + 1 }
  else if instr = 93 then
    match g.goto with
    | [] => .fail .indexError g
    | t :: rest =>
      if g.mem.getD g.ptr 0 ≠ 0 then .next { g with k := t + 1 }
      else .next { g with goto := rest, k := g.k + 1 }
  else .next { g with k := g.k + 1 }

/-- The two stream-operator branches of the dispatch: `.` (46) writes the
current cell to the output and flushes; `,` (44) reads one byte, failing
with `TypeError` (`ord` of the empty read) when the input is exhausted,
and stores its value mod 256.  Other bytes fall through to `stepJump`. -/
def stepIo (code : List Nat) (instr : Nat) (g : Cfg) : StepRes :=
  if instr = 46 then
    .next { g with outp := g.outp ++ [g.mem.getD g.ptr 0], k := g.k + 1 }
  else if instr = 44 then
    match g.inp with
    | [] => .fail .typeError g
    | b :: rest => .next { g with mem := g.mem.set g.ptr (b % 256), inp := rest, k := g.k + 1 }
  else stepJump code instr g

/-- The rest of one loop iteration after the counters were updated: the
budget check `ops_count > max_ops` followed by the instruction dispatch —
the four value/pointer branches here, the stream and loop operators in
`stepIo`/`stepJump` — including the `k += 1` at the bottom of the loop
body.  `g` is the configuration with counters already bumped; the tape,
pointer, stack and streams it carries are those the iteration started
with. -/
def stepAt (code : List Nat) (wrap : Bool) (maxOps : Nat) (instr : Nat) (g : Cfg) : StepRes :=
  if maxOps < g.ops then .fail .runtimeError g
  else if instr = 43 then
    if g.mem.getD g.ptr 0 = 255 ∧ wrap = false then .fail .overflowError g
    else .next { g with mem := g.mem.set g.ptr ((g.mem.getD g.ptr 0 + 1) % 256), k := g.k + 1 }
  else if instr = 45 then
    if g.mem.getD g.ptr 0 = 0 ∧ wrap = false then .fail .overflowError g
    else .next { g with mem := g.mem.set g.ptr ((g.mem.getD g.ptr 0 + 255) % 256), k := g.k + 1 }
  else if instr = 62 then
    if g.ptr = g.mem.length - 1 then .fail .indexError g
    else .next { g with ptr := g.ptr + 1, k := g.k + 1 }
  else if instr = 60 then
    if g.ptr = 0 then .fail .indexError g
    else .next { g with ptr := g.ptr - 1, k := g.k + 1 }
  else stepIo code instr g

/-- One iteration of the `while k < n` loop of `BrainfuckInterpreter.exec`:
fetch `code[k]` (the loop stops when `k` reaches the end), update the metric
counters (`bump`), then check the budget and apply the instruction
semantics (`stepAt`). -/
def step (code : List Nat) (wrap : Bool) (maxOps : Nat) (g : Cfg) : StepRes :=
  match code.get? g.k with
  | none => .halt
  | some instr => stepAt code wrap maxOps instr (bump instr g)

/-- The `while k < n` loop: iterate `step` until the code is exhausted or an
exception is raised.  The fuel-expired result is unreachable whenever
`fuel + ops > maxOps` (see `run_fuel_irrelevant`), which holds for the fuel
`max_ops + 1` used by `exec`. -/
def run (code : List Nat) (wrap : Bool) (maxOps : Nat) : Nat → Cfg → Cfg × Option PyExc
  | 0, g => (g, some .runtimeError)
  | fuel + 1, g =>
    match step code wrap maxOps g with
    | .halt => (g, none)
    | .fail e g2 => (g2, some e)
    | .next g2 => run code wrap maxOps fuel g2

/-- Persistent state of a `BrainfuckInterpreter` instance: the tape
`self.mem`, the committed `self.pointer`, the interpreter's ends of the
input and output streams, and the two configuration options. -/
structure Interp where
  mem : List Nat
  pointer : Nat
  inp : List Nat
  outp : List Nat
  wrap_values : Bool
  max_ops : Nat
deriving DecidableEq, Repr

/-- Initial loop configuration built from the interpreter's persistent
state at the top of `exec` (`k, goto, n = 0, deque(), len(code)` and the
five metric counters initialised to zero). -/
def mkCfg (i : Interp) : Cfg :=
  ⟨0, i.mem, i.pointer, [], i.inp, i.outp, 0, 0, 0, 0, 0⟩

/-- Metrics snapshot assembled from the final loop configuration. -/
def metricsOf (g : Cfg) : Metrics :=
  ⟨g.vc, g.pc, g.ioc, g.jc, g.ops⟩

/-- A `BrainfuckInterpreter.exec` call: parse the code with a fresh
parser (`SyntaxError` propagates, incomplete code raises `EOFError`),
run the loop, and commit tape, pointer and stream positions back to the
instance whether the run succeeded or raised (`finally: self.pointer =
pointer`; the tape and the streams are mutated in place). -/
def Interp.exec (i : Interp) (code : List Nat) : Except PyExc Metrics × Interp :=
  match parseFresh code with
  | .error _ => (.error .syntaxError, i)
  | .ok none => (.error .eofError, i)
  | .ok (some prog) =>
    match run prog i.wrap_values i.max_ops (i.max_ops + 1) (mkCfg i) with
    | (g, res) =>
      let i2 : Interp :=
        { i with mem := g.mem, pointer := g.ptr, inp := g.inp, outp := g.outp }
      match res with
      | none => (.ok (metricsOf g), i2)
      | some e => (.error e, i2)

/-- A Python value passed as the `code` argument: a `str` (already
encoded to its bytes), a `bytes` object, or a value of any other type. -/
inductive PyVal where
  | pstr (s : List Nat)
  | pbytes (b : List Nat)
  | other
deriving DecidableEq, Repr

/-- The `isinstance` check at the top of `BrainfuckParser.parse`
(reached from `exec`): any argument that is neither `str` nor `bytes`
raises `TypeError` before anything is parsed or executed. -/
def Interp.execChecked (i : Interp) (v : PyVal) : Except PyExc Metrics × Interp :=
  match v with
  | .pstr s => i.exec s
  | .pbytes b => i.exec b
  | .other => (.error .typeError, i)

/-- Successive `exec` calls on one interpreter instance, stopping at the
first raised exception (which propagates to the caller). -/
def execList (i : Interp) : List (List Nat) → Except PyExc Unit × Interp
  | [] => (.ok (), i)
  | c :: cs =>
    match i.exec c with
    | (.ok _, i2) => execList i2 cs
    | (.error e, i2) => (.error e, i2)

/-- A byte string parses to a complete program. -/
def isCompleteParse (code : List Nat) : Bool :=
  match parseFresh code with
  | .ok (some _) => true
  | _ => false

/-- Bracket depth of a byte string: occurrences of `[` minus occurrences
of `]`. -/
def intDepth (A : List Nat) : Int :=
  (A.count 91 : Int) - (A.count 93 : Int)

/-- No position holds a `[` immediately followed by a `]` (the parser
rejects empty loop bodies). -/
def NoEmpty (A : List Nat) : Prop :=
  ∀ j, ¬(A.get? j = some 91 ∧ A.get? (j + 1) = some 93)

/-- The structural facts the parser guarantees for a complete program:
balanced brackets, no prefix closing more than it opened, and no empty
loop body. -/
def GoodProg (A : List Nat) : Prop :=
  intDepth A = 0 ∧ (∀ n, 0 ≤ intDepth (A.take n)) ∧ NoEmpty A

/-- Well-formedness of the jump stack relative to the current instruction
index `k`: entries are loop-start positions strictly below `k`, ordered
innermost first, each with its forward scan (the loop's close bracket) at
or beyond `k`, and the tail well-formed for the position just past that
close bracket. -/
inductive StackOk (A : List Nat) : Nat → List Nat → Prop where
  | nil : ∀ {k}, k ≤ A.length → StackOk A k []
  | cons : ∀ {k g m rest}, A.get? g = some 91 →
      skipScan A (g + 1) 0 A.length = some m →
      g < k → k ≤ m → (∀ x ∈ rest, x < g) → StackOk A (m + 1) rest →
      StackOk A k (g :: rest)

/-- A loop configuration repositioned after a prefix of length `n` of a
larger program, with the metric counters offset by the totals the prefix
contributed: instruction index and stack entries shift by `n`; tape,
pointer and streams are shared. -/
def shiftCfg (n dv dp dio dj dops : Nat) (gb : Cfg) : Cfg :=
  ⟨n + gb.k, gb.mem, gb.ptr, gb.goto.map (fun x => n + x), gb.inp, gb.outp,
   gb.vc + dv, gb.pc + dp, gb.ioc + dio, gb.jc + dj, gb.ops + dops⟩

/-! ## Claims about the parser error cases and trivial exec outcomes -/

/-- C10: incomplete code (unmatched `LoopStart` at end of input, parse
result `None`) makes `exec` raise `EOFError` before any instruction runs,
leaving the engine's tape and cursor untouched; `EOFError` is a different
exception class from `SyntaxError`. -/
theorem exec_incomplete_eofError (i : Interp) (code : List Nat)
    (h : parseFresh code = .ok none) :
    i.exec code = (.error .eofError, i) ∧ PyExc.eofError ≠ PyExc.syntaxError := by
  refine ⟨?_, by decide⟩
  simp [Interp.exec, h]

/-- Witness for `exec_incomplete_eofError` at the incomplete program `"["`. -/
theorem exec_incomplete_eofError_witness :
    parseFresh [91] = .ok none ∧
    ((Interp.mk [0, 0] 0 [] [] false 50).exec [91] =
       (.error .eofError, Interp.mk [0, 0] 0 [] [] false 50) ∧
     PyExc.eofError ≠ PyExc.syntaxError) :=
  ⟨rfl, exec_incomplete_eofError (Interp.mk [0, 0] 0 [] [] false 50) [91] rfl⟩

/-- C2: a kept `LoopEnd` byte (93) raises `SyntaxError` exactly when the
accumulated buffer is empty, the carried counter is zero, or the previous
kept byte is `LoopStart` (91); otherwise the counter is decremented and the
byte appended.  The one-shot parses of `"]"`, `"[]"`, `"+-[]+-"` and
`"[+]]"` all raise `SyntaxError`. -/
theorem parse_loopEnd_syntaxError_iff :
    (∀ c buf, parseTok c buf 93 = .error () ↔
        (buf = [] ∨ c = 0 ∨ buf.getLast? = some 91)) ∧
    (∀ c buf, ¬(buf = [] ∨ c = 0 ∨ buf.getLast? = some 91) →
        parseTok c buf 93 = .ok (c - 1, buf ++ [93])) ∧
    parseFresh [93] = .error () ∧
    parseFresh [91, 93] = .error () ∧
    parseFresh [43, 45, 91, 93, 43, 45] = .error () ∧
    parseFresh [91, 43, 93, 93] = .error () := by
  have hred : ∀ c buf, parseTok c buf 93 =
      (match buf.getLast? with
       | none => Except.error ()
       | some prev =>
         if c = 0 || prev = 91 then Except.error () else Except.ok (c - 1, buf ++ [93])) :=
    fun c buf => rfl
  refine ⟨?_, ?_, rfl, rfl, rfl, rfl⟩
  · intro c buf
    rw [hred]
    rcases h : buf.getLast? with _ | prev
    · simp [List.getLast?_eq_none_iff.mp h]
    · have hne : buf ≠ [] := by
        intro he
        rw [he] at h
        simp at h
      by_cases hc : c = 0
      · simp [hc, hne]
      · by_cases hp : prev = 91
        · simp [hc, hp, hne, h]
        · simp [hc, hp, hne, h]
  · intro c buf hcond
    push_neg at hcond
    obtain ⟨h1, h2, h3⟩ := hcond
    rw [hred]
    rcases h : buf.getLast? with _ | prev
    · exact absurd (List.getLast?_eq_none_iff.mp h) h1
    · rw [h] at h3
      have hp : prev ≠ 91 := fun he => h3 (by rw [he])
      simp [h2, hp]

/-- Witness for `parse_loopEnd_syntaxError_iff` at the counter/buffer state
reached after parsing `"[+"`. -/
theorem parse_loopEnd_syntaxError_iff_witness :
    (parseTok 1 [91, 43] 93 = .error () ↔
      ([91, 43] = ([] : List Nat) ∨ 1 = 0 ∨ [91, 43].getLast? = some 91)) ∧
    parseTok 1 [91, 43] 93 = .ok (0, [91, 43, 93]) :=
  ⟨parse_loopEnd_syntaxError_iff.1 1 [91, 43],
   parse_loopEnd_syntaxError_iff.2.1 1 [91, 43] (by decide)⟩

/-! ## Claim C3: the input operator -/

/-- C3 (counterexample): with the input stream exhausted, the input
operator does not fail with a dedicated end-of-input kind: `ord('')`
raises `TypeError`, the very exception class the parser raises for an
invalid (non-`str`/`bytes`) code argument, so the caller cannot identify
an input-exhausted failure as a kind distinct from the invalid-argument
kind. -/
theorem input_exhausted_typeError_not_distinct :
    ((Interp.mk [0] 0 [] [] false 100).exec [44]).1 = .error .typeError ∧
    ((Interp.mk [0] 0 [] [] false 100).execChecked .other).1 = .error .typeError :=
  ⟨rfl, rfl⟩

/-- C3 (amended): when the input source still has a byte, the input
operator consumes exactly one byte and stores its value mod 256 into the
current cell; when the source is exhausted, execution fails with
`TypeError` (raised by `ord('')` on the empty read), which is the same
exception class as the invalid-argument errors rather than a distinct
end-of-input kind. -/
theorem input_op_reads_byte_or_typeError :
    (∀ code w mo (g : Cfg), code.get? g.k = some 44 → g.ops < mo →
       (g.inp = [] → step code w mo g = .fail .typeError
          { g with ioc := g.ioc + 1, ops := g.ops + 1 }) ∧
       (∀ b rest, g.inp = b :: rest → step code w mo g = .next
          { g with ioc := g.ioc + 1, ops := g.ops + 1,
                   mem := g.mem.set g.ptr (b % 256), inp := rest, k := g.k + 1 })) ∧
    (Interp.mk [0] 0 [] [] false 100).exec [44] =
      (.error .typeError, Interp.mk [0] 0 [] [] false 100) ∧
    (Interp.mk [0] 0 [300] [] false 100).exec [44] =
      (.ok (Metrics.mk 0 0 1 0 1), Interp.mk [44] 0 [] [] false 100) := by
  refine ⟨?_, rfl, rfl⟩
  intro code w mo g hk hops
  have hk2 : code[g.k]? = some 44 := by simpa using hk
  have hbudget : ¬ mo < g.ops + 1 := by omega
  constructor
  · intro hin
    simp [step, stepAt, stepIo, bump, hk2, hbudget, hin]
  · intro b rest hin
    simp [step, stepAt, stepIo, bump, hk2, hbudget, hin]

/-- Witness for `input_op_reads_byte_or_typeError` at a concrete
configuration with one input byte 300. -/
theorem input_op_reads_byte_or_typeError_witness :
    step [44] false 100 (Cfg.mk 0 [0] 0 [] [300] [] 0 0 0 0 0) = .next
      (Cfg.mk (0 + 1) ([0].set 0 (300 % 256)) 0 [] [] [] 0 0 (0 + 1) 0 (0 + 1)) :=
  (input_op_reads_byte_or_typeError.1 [44] false 100
    (Cfg.mk 0 [0] 0 [] [300] [] 0 0 0 0 0) rfl (by decide)).2 300 [] rfl

/-! ## Claim C1: the zero-cell loop-skip scan -/

/-- C1 (code bug): the loop-skip scan in the `instr == 91` branch starts
reading at `k + 2`, so a nested `LoopStart` located immediately after the
skipped loop's own `LoopStart` is never counted.  On the validated
complete program `"[[+]]"` with the current cell zero, the matching
`LoopEnd` of index 0 is at index 4 (the faithful scan from `k + 1` finds
it), but the source's scan from `k + 2` stops at the inner `LoopEnd`
(index 3); execution then resumes at index 4, executes the outer
`LoopEnd` as an ordinary instruction and crashes popping the empty jump
stack (`IndexError`) instead of skipping the loop.  On `"+[>[[+]-]<-]"`
the same slip makes the engine execute an enclosed instruction (`-` on a
zero cell, raising `OverflowError`). -/
theorem loopSkip_bug_at_nested_loopStart :
    parseFresh [91, 91, 43, 93, 93] = .ok (some [91, 91, 43, 93, 93]) ∧
    skipScan [91, 91, 43, 93, 93] 1 0 5 = some 4 ∧
    skipScan [91, 91, 43, 93, 93] 2 0 5 = some 3 ∧
    (Interp.mk [0, 0] 0 [] [] false 100).exec [91, 91, 43, 93, 93] =
      (.error .indexError, Interp.mk [0, 0] 0 [] [] false 100) ∧
    (Interp.mk [0, 0, 0, 0] 0 [] [] false 100).exec
        [43, 91, 62, 91, 91, 43, 93, 45, 93, 60, 45, 93] =
      (.error .overflowError, Interp.mk [1, 0, 0, 0] 1 [] [] false 100) :=
  ⟨rfl, rfl, rfl, rfl, rfl⟩

/-! ## Basic facts about the loop step and the loop -/

@[simp] theorem bump_k (instr : Nat) (g : Cfg) : (bump instr g).k = g.k := rfl

@[simp] theorem bump_mem (instr : Nat) (g : Cfg) : (bump instr g).mem = g.mem := rfl

@[simp] theorem bump_ptr (instr : Nat) (g : Cfg) : (bump instr g).ptr = g.ptr := rfl

@[simp] theorem bump_goto (instr : Nat) (g : Cfg) : (bump instr g).goto = g.goto := rfl

@[simp] theorem bump_inp (instr : Nat) (g : Cfg) : (bump instr g).inp = g.inp := rfl

@[simp] theorem bump_outp (instr : Nat) (g : Cfg) : (bump instr g).outp = g.outp := rfl

@[simp] theorem bump_ops (instr : Nat) (g : Cfg) : (bump instr g).ops = g.ops + 1 := rfl

/-- A failing loop-operator dispatch keeps the configuration and never
raises `RuntimeError`. -/
theorem stepJump_fail_cfg {code : List Nat} {instr : Nat} {g : Cfg}
    {e : PyExc} {g2 : Cfg} (h : stepJump code instr g = .fail e g2) :
    g2 = g ∧ e = .indexError := by
  unfold stepJump at h
  repeat' split at h
  all_goals first
    | exact StepRes.noConfusion h
    | (injection h with h1 h2; exact ⟨h2.symm, h1.symm⟩)

/-- A failing stream-operator dispatch keeps the configuration and never
raises `RuntimeError`. -/
theorem stepIo_fail_cfg {code : List Nat} {instr : Nat} {g : Cfg}
    {e : PyExc} {g2 : Cfg} (h : stepIo code instr g = .fail e g2) :
    g2 = g ∧ e ≠ .runtimeError := by
  unfold stepIo at h
  repeat' split at h
  all_goals first
    | exact StepRes.noConfusion h
    | (injection h with h1 h2; exact ⟨h2.symm, by rw [← h1]; decide⟩)
    | (obtain ⟨h1, h2⟩ := stepJump_fail_cfg h; exact ⟨h1, by rw [h2]; decide⟩)

/-- Every failing dispatch returns the iteration's starting configuration
(with counters already bumped) unchanged. -/
theorem stepAt_fail_cfg {code : List Nat} {w : Bool} {mo instr : Nat} {g : Cfg}
    {e : PyExc} {g2 : Cfg} (h : stepAt code w mo instr g = .fail e g2) : g2 = g := by
  unfold stepAt at h
  repeat' split at h
  all_goals first
    | exact StepRes.noConfusion h
    | (injection h with h1 h2; exact h2.symm)
    | exact (stepIo_fail_cfg h).1

/-- A `RuntimeError` from the dispatch comes only from the budget check. -/
theorem stepAt_fail_budget {code : List Nat} {w : Bool} {mo instr : Nat} {g : Cfg}
    {g2 : Cfg} (h : stepAt code w mo instr g = .fail .runtimeError g2) : mo < g.ops := by
  by_cases hb : mo < g.ops
  · exact hb
  · exfalso
    unfold stepAt at h
    rw [if_neg hb] at h
    repeat' split at h
    all_goals first
      | exact StepRes.noConfusion h
      | (injection h with h1 h2; exact PyExc.noConfusion h1)
      | exact (stepIo_fail_cfg h).2 rfl

/-- A successful loop-operator dispatch leaves the metric counters untouched. -/
theorem stepJump_next_inv {code : List Nat} {instr : Nat} {g : Cfg}
    {g2 : Cfg} (h : stepJump code instr g = .next g2) :
    g2.ops = g.ops ∧ g2.vc = g.vc ∧ g2.pc = g.pc ∧ g2.ioc = g.ioc ∧ g2.jc = g.jc := by
  unfold stepJump at h
  repeat' split at h
  all_goals first
    | exact StepRes.noConfusion h
    | (injection h with h1; subst h1; exact ⟨rfl, rfl, rfl, rfl, rfl⟩)

/-- A successful stream-operator dispatch leaves the metric counters untouched. -/
theorem stepIo_next_inv {code : List Nat} {instr : Nat} {g : Cfg}
    {g2 : Cfg} (h : stepIo code instr g = .next g2) :
    g2.ops = g.ops ∧ g2.vc = g.vc ∧ g2.pc = g.pc ∧ g2.ioc = g.ioc ∧ g2.jc = g.jc := by
  unfold stepIo at h
  repeat' split at h
  all_goals first
    | exact StepRes.noConfusion h
    | (injection h with h1; subst h1; exact ⟨rfl, rfl, rfl, rfl, rfl⟩)
    | exact stepJump_next_inv h

/-- A successful dispatch leaves the metric counters untouched and passes
the budget check. -/
theorem stepAt_next_inv {code : List Nat} {w : Bool} {mo instr : Nat} {g : Cfg}
    {g2 : Cfg} (h : stepAt code w mo instr g = .next g2) :
    g2.ops = g.ops ∧ g2.vc = g.vc ∧ g2.pc = g.pc ∧ g2.ioc = g.ioc ∧ g2.jc = g.jc ∧
      ¬ mo < g.ops := by
  by_cases hb : mo < g.ops
  · exfalso
    unfold stepAt at h
    rw [if_pos hb] at h
    exact StepRes.noConfusion h
  · unfold stepAt at h
    rw [if_neg hb] at h
    repeat' split at h
    all_goals first
      | exact StepRes.noConfusion h
      | (injection h with h1; subst h1; exact ⟨rfl, rfl, rfl, rfl, rfl, hb⟩)
      | (obtain ⟨h1, h2, h3, h4, h5⟩ := stepIo_next_inv h; exact ⟨h1, h2, h3, h4, h5, hb⟩)

/-- A step that runs the loop body bumps the total counter by exactly one
and passed the budget check. -/
theorem step_next_ops {code : List Nat} {w : Bool} {mo : Nat} {g g2 : Cfg}
    (h : step code w mo g = .next g2) : g2.ops = g.ops + 1 ∧ g.ops + 1 ≤ mo := by
  unfold step at h
  rcases hk : code.get? g.k with _ | instr <;> rw [hk] at h
  · simp at h
  · have h2 := stepAt_next_inv h
    refine ⟨by simpa using h2.1, ?_⟩
    have := h2.2.2.2.2.2
    simpa using Nat.not_lt.mp this

/-- A failing step returns the bumped starting configuration. -/
theorem step_fail_cfg {code : List Nat} {w : Bool} {mo : Nat} {g : Cfg} {e : PyExc}
    {g2 : Cfg} (h : step code w mo g = .fail e g2) :
    ∃ instr, code.get? g.k = some instr ∧ g2 = bump instr g := by
  unfold step at h
  rcases hk : code.get? g.k with _ | instr <;> rw [hk] at h
  · simp at h
  · exact ⟨instr, rfl, stepAt_fail_cfg h⟩

/-- A step failing with `RuntimeError` failed the budget check after the bump. -/
theorem step_fail_budget {code : List Nat} {w : Bool} {mo : Nat} {g : Cfg}
    {g2 : Cfg} (h : step code w mo g = .fail .runtimeError g2) : mo < g.ops + 1 := by
  unfold step at h
  rcases hk : code.get? g.k with _ | instr <;> rw [hk] at h
  · simp at h
  · simpa using stepAt_fail_budget h

/-- Workhorse: a configuration property preserved by both successful and
failing steps holds for the final configuration of every run. -/
theorem run_preserve {code : List Nat} {w : Bool} {mo : Nat} (P : Cfg → Prop)
    (hnext : ∀ g g2, step code w mo g = .next g2 → P g → P g2)
    (hfail : ∀ g e g2, step code w mo g = .fail e g2 → P g → P g2) :
    ∀ fuel g, P g → P (run code w mo fuel g).1 := by
  intro fuel
  induction fuel with
  | zero => intro g hg; exact hg
  | succ n ih =>
    intro g hg
    show P (run code w mo (n + 1) g).1
    rw [run]
    rcases hs : step code w mo g with _ | ⟨e, g2⟩ | g2
    · exact hg
    · exact hfail g e g2 hs hg
    · exact ih g2 (hnext g g2 hs hg)

/-- A successful run keeps the total counter within the budget. -/
theorem run_success_ops_le {code : List Nat} {w : Bool} {mo : Nat} :
    ∀ fuel (g gf : Cfg), run code w mo fuel g = (gf, none) → g.ops ≤ mo → gf.ops ≤ mo := by
  intro fuel
  induction fuel with
  | zero => intro g gf h _; simp [run] at h
  | succ n ih =>
    intro g gf h hg
    rw [run] at h
    rcases hs : step code w mo g with _ | ⟨e, g2⟩ | g2 <;> rw [hs] at h
    · cases h; exact hg
    · simp at h
    · have h2 := step_next_ops hs
      exact ih g2 gf h (by omega)

/-- A run that fails with `RuntimeError` (given enough fuel, as supplied by
`exec`) stops with total counter exactly `maxOps + 1`, at a step whose
instruction semantics were not applied: the final configuration carries the
tape, pointer and streams of the configuration the failing iteration
started from. -/
theorem run_re {code : List Nat} {w : Bool} {mo : Nat} :
    ∀ fuel (g gf : Cfg), g.ops ≤ mo → mo + 1 ≤ g.ops + fuel →
      run code w mo fuel g = (gf, some .runtimeError) →
      gf.ops = mo + 1 ∧ ∃ gp, step code w mo gp = .fail .runtimeError gf ∧
        gf.mem = gp.mem ∧ gf.ptr = gp.ptr ∧ gf.inp = gp.inp ∧ gf.outp = gp.outp := by
  intro fuel
  induction fuel with
  | zero => intro g gf h1 h2 _; omega
  | succ n ih =>
    intro g gf h1 h2 h
    rw [run] at h
    rcases hs : step code w mo g with _ | ⟨e, g2⟩ | g2 <;> rw [hs] at h
    · simp at h
    · obtain ⟨rfl, rfl⟩ : g2 = gf ∧ e = .runtimeError := by
        constructor <;> cases h <;> rfl
      have hb := step_fail_budget hs
      obtain ⟨instr, _, rfl⟩ := step_fail_cfg hs
      exact ⟨by simp; omega, g, hs, by simp, by simp, by simp, by simp⟩
    · have h2n := step_next_ops hs
      exact ih g2 gf (by omega) (by omega) h

/-- Unfolding an `exec` call whose code parses to a complete program, in
terms of the final configuration of the loop. -/
theorem exec_eq_run {i : Interp} {code prog : List Nat}
    (hp : parseFresh code = .ok (some prog)) {g : Cfg} {r : Option PyExc}
    (hr : run prog i.wrap_values i.max_ops (i.max_ops + 1) (mkCfg i) = (g, r)) :
    i.exec code = ((match r with
        | none => Except.ok (metricsOf g)
        | some e => Except.error e),
      { i with mem := g.mem, pointer := g.ptr, inp := g.inp, outp := g.outp }) := by
  simp only [Interp.exec, hp, hr]
  rcases r with _ | e <;> rfl

/-! ## Claim C4: the operation budget -/

/-- C4: if the number of instructions executed in one `exec` call exceeds
`max_ops`, the call fails with `RuntimeError` (the `ResourceExhausted`
kind): the loop stops at the over-limit instruction with the internal
total-op count equal to `max_ops + 1`, and that instruction's semantics
are not applied — the committed state carries the tape, pointer and
streams exactly as the failing iteration found them.  Conversely a
successful `exec` call never executes more than `max_ops` instructions. -/
theorem exec_resourceExhausted_spec (i : Interp) (code prog : List Nat)
    (hp : parseFresh code = .ok (some prog)) :
    (∀ i2, i.exec code = (.error .runtimeError, i2) →
       ∃ g gp, run prog i.wrap_values i.max_ops (i.max_ops + 1) (mkCfg i) =
           (g, some .runtimeError) ∧
         g.ops = i.max_ops + 1 ∧
         step prog i.wrap_values i.max_ops gp = .fail .runtimeError g ∧
         i2.mem = gp.mem ∧ i2.pointer = gp.ptr ∧ i2.inp = gp.inp ∧ i2.outp = gp.outp) ∧
    (∀ m i2, i.exec code = (.ok m, i2) → m.ops_count ≤ i.max_ops) := by
  constructor
  · intro i2 h
    rcases hr : run prog i.wrap_values i.max_ops (i.max_ops + 1) (mkCfg i) with ⟨g, r⟩
    have hx := exec_eq_run hp hr
    rw [h] at hx
    rcases r with _ | e
    · simp at hx
    · have he1 : e = .runtimeError := by
        have h1 := congrArg Prod.fst hx
        simpa using h1.symm
      subst he1
      have he2 : i2 = { i with mem := g.mem, pointer := g.ptr, inp := g.inp, outp := g.outp } := by
        have h1 := congrArg Prod.snd hx
        simpa using h1
      subst he2
      have hre := run_re (i.max_ops + 1) (mkCfg i) g (by simp [mkCfg])
        (by simp [mkCfg]) hr
      obtain ⟨hops, gp, hstep, hm, hptr, hin, hout⟩ := hre
      exact ⟨g, gp, rfl, hops, hstep, hm, hptr, hin, hout⟩
  · intro m i2 h
    rcases hr : run prog i.wrap_values i.max_ops (i.max_ops + 1) (mkCfg i) with ⟨g, r⟩
    have hx := exec_eq_run hp hr
    rw [h] at hx
    rcases r with _ | e
    · obtain rfl : m = metricsOf g := by
        have h1 := congrArg Prod.fst hx
        simpa using h1
      have := run_success_ops_le (i.max_ops + 1) (mkCfg i) g hr (by simp [mkCfg])
      simpa [metricsOf] using this
    · simp at hx

/-- Witness for `exec_resourceExhausted_spec`: `"+++"` with a budget of 2
fails with total count 3 and the third `+` not applied. -/
theorem exec_resourceExhausted_spec_witness :
    ∃ g gp, run [43, 43, 43] false 2 3 (mkCfg (Interp.mk [0, 0] 0 [] [] false 2)) =
        (g, some .runtimeError) ∧
      g.ops = 2 + 1 ∧
      step [43, 43, 43] false 2 gp = .fail .runtimeError g ∧
      (Interp.mk [2, 0] 0 [] [] false 2).mem = gp.mem ∧
      (Interp.mk [2, 0] 0 [] [] false 2).pointer = gp.ptr ∧
      (Interp.mk [2, 0] 0 [] [] false 2).inp = gp.inp ∧
      (Interp.mk [2, 0] 0 [] [] false 2).outp = gp.outp :=
  (exec_resourceExhausted_spec (Interp.mk [0, 0] 0 [] [] false 2) [43, 43, 43]
    [43, 43, 43] rfl).1 (Interp.mk [2, 0] 0 [] [] false 2) rfl

/-! ## Claim C5: state committed on failure -/

/-- C5: whenever `exec` fails with an execution error, the loop's last
configuration is committed to the engine's persistent state before the
error propagates: the returned instance carries exactly the tape, cursor
and stream positions the loop stopped with (nothing is rolled back), and
its configuration options are unchanged, so a subsequent `exec` call on it
resumes from that state. -/
theorem exec_commits_state_on_failure (i : Interp) (code prog : List Nat)
    (e : PyExc) (i2 : Interp)
    (hp : parseFresh code = .ok (some prog))
    (h : i.exec code = (.error e, i2)) :
    (run prog i.wrap_values i.max_ops (i.max_ops + 1) (mkCfg i)).2 = some e ∧
    i2.mem = (run prog i.wrap_values i.max_ops (i.max_ops + 1) (mkCfg i)).1.mem ∧
    i2.pointer = (run prog i.wrap_values i.max_ops (i.max_ops + 1) (mkCfg i)).1.ptr ∧
    i2.inp = (run prog i.wrap_values i.max_ops (i.max_ops + 1) (mkCfg i)).1.inp ∧
    i2.outp = (run prog i.wrap_values i.max_ops (i.max_ops + 1) (mkCfg i)).1.outp ∧
    i2.wrap_values = i.wrap_values ∧ i2.max_ops = i.max_ops := by
  rcases hr : run prog i.wrap_values i.max_ops (i.max_ops + 1) (mkCfg i) with ⟨g, r⟩
  have hx := exec_eq_run hp hr
  rw [h] at hx
  rcases r with _ | e2
  · simp at hx
  · obtain rfl : e2 = e := by
      have h1 := congrArg Prod.fst hx
      simpa using h1.symm
    obtain rfl : i2 = { i with mem := g.mem, pointer := g.ptr, inp := g.inp, outp := g.outp } := by
      have h1 := congrArg Prod.snd hx
      simpa using h1
    simp

/-- Witness for `exec_commits_state_on_failure`: `"+++<"` fails with
`IndexError` but commits the three increments and the cursor. -/
theorem exec_commits_state_on_failure_witness :
    (run [43, 43, 43, 60] false 100 101 (mkCfg (Interp.mk [0, 0] 0 [] [] false 100))).2 =
      some .indexError ∧
    (Interp.mk [3, 0] 0 [] [] false 100).mem =
      (run [43, 43, 43, 60] false 100 101 (mkCfg (Interp.mk [0, 0] 0 [] [] false 100))).1.mem ∧
    (Interp.mk [3, 0] 0 [] [] false 100).pointer =
      (run [43, 43, 43, 60] false 100 101 (mkCfg (Interp.mk [0, 0] 0 [] [] false 100))).1.ptr ∧
    (Interp.mk [3, 0] 0 [] [] false 100).inp =
      (run [43, 43, 43, 60] false 100 101 (mkCfg (Interp.mk [0, 0] 0 [] [] false 100))).1.inp ∧
    (Interp.mk [3, 0] 0 [] [] false 100).outp =
      (run [43, 43, 43, 60] false 100 101 (mkCfg (Interp.mk [0, 0] 0 [] [] false 100))).1.outp ∧
    (Interp.mk [3, 0] 0 [] [] false 100).wrap_values =
      (Interp.mk [0, 0] 0 [] [] false 100).wrap_values ∧
    (Interp.mk [3, 0] 0 [] [] false 100).max_ops =
      (Interp.mk [0, 0] 0 [] [] false 100).max_ops :=
  exec_commits_state_on_failure (Interp.mk [0, 0] 0 [] [] false 100)
    [43, 43, 43, 60] [43, 43, 43, 60] .indexError
    (Interp.mk [3, 0] 0 [] [] false 100) rfl rfl

/-! ## Claim C8: the cursor stays inside the tape -/

/-- A successful loop-operator dispatch moves neither tape nor pointer. -/
theorem stepJump_next_tape {code : List Nat} {instr : Nat} {g g2 : Cfg}
    (h : stepJump code instr g = .next g2) : g2.mem = g.mem ∧ g2.ptr = g.ptr := by
  unfold stepJump at h
  repeat' split at h
  all_goals first
    | exact StepRes.noConfusion h
    | (injection h with h1; subst h1; exact ⟨rfl, rfl⟩)

/-- A successful stream-operator dispatch keeps the tape length and pointer. -/
theorem stepIo_next_tape {code : List Nat} {instr : Nat} {g g2 : Cfg}
    (h : stepIo code instr g = .next g2) : g2.mem.length = g.mem.length ∧ g2.ptr = g.ptr := by
  unfold stepIo at h
  repeat' split at h
  all_goals first
    | exact StepRes.noConfusion h
    | (injection h with h1; subst h1; exact ⟨by simp, rfl⟩)
    | (obtain ⟨h1, h2⟩ := stepJump_next_tape h; exact ⟨by rw [h1], h2⟩)

/-- A successful dispatch keeps the tape length and keeps the pointer
inside the tape: the two pointer moves are guarded against both edges. -/
theorem stepAt_next_tape {code : List Nat} {w : Bool} {mo instr : Nat} {g g2 : Cfg}
    (h : stepAt code w mo instr g = .next g2) :
    g2.mem.length = g.mem.length ∧ (g.ptr < g.mem.length → g2.ptr < g2.mem.length) := by
  unfold stepAt at h
  repeat' split at h
  all_goals first
    | exact StepRes.noConfusion h
    | (injection h with h1; subst h1;
       refine ⟨by simp, fun hp => ?_⟩;
       simp only [List.length_set];
       omega)
    | (obtain ⟨h1, h2⟩ := stepIo_next_tape h; exact ⟨h1, fun hp => by rw [h1, h2]; exact hp⟩)

/-- A step that runs the loop body keeps the tape length and an in-bounds
pointer in bounds. -/
theorem step_next_tape {code : List Nat} {w : Bool} {mo : Nat} {g g2 : Cfg}
    (h : step code w mo g = .next g2) :
    g2.mem.length = g.mem.length ∧ (g.ptr < g.mem.length → g2.ptr < g2.mem.length) := by
  unfold step at h
  rcases hk : code.get? g.k with _ | instr <;> rw [hk] at h
  · exact StepRes.noConfusion h
  · simpa using stepAt_next_tape h

/-- A failing step keeps tape and pointer (only counters were bumped). -/
theorem step_fail_tape {code : List Nat} {w : Bool} {mo : Nat} {g : Cfg} {e : PyExc}
    {g2 : Cfg} (h : step code w mo g = .fail e g2) : g2.mem = g.mem ∧ g2.ptr = g.ptr := by
  obtain ⟨instr, _, rfl⟩ := step_fail_cfg h
  exact ⟨rfl, rfl⟩

/-- The in-bounds invariant for final configurations of `run`. -/
theorem run_tape_inv {code : List Nat} {w : Bool} {mo : Nat} (fuel : Nat) (g : Cfg)
    (hg : g.ptr < g.mem.length) :
    (run code w mo fuel g).1.ptr < (run code w mo fuel g).1.mem.length ∧
    (run code w mo fuel g).1.mem.length = g.mem.length := by
  have := @run_preserve code w mo
    (fun g2 => g2.ptr < g2.mem.length ∧ g2.mem.length = g.mem.length)
    (fun ga gb hs hp => by
      obtain ⟨h1, h2⟩ := step_next_tape hs
      exact ⟨h2 hp.1, by rw [h1, hp.2]⟩)
    (fun ga e gb hs hp => by
      obtain ⟨h1, h2⟩ := step_fail_tape hs
      exact ⟨by rw [h1, h2]; exact hp.1, by rw [h1, hp.2]⟩)
    fuel g ⟨hg, rfl⟩
  exact this

/-- The in-bounds invariant survives one `exec` call. -/
theorem exec_tape_inv (i : Interp) (code : List Nat)
    (hg : i.pointer < i.mem.length) :
    (i.exec code).2.pointer < (i.exec code).2.mem.length ∧
    (i.exec code).2.mem.length = i.mem.length := by
  rcases hp : parseFresh code with e | r
  · rw [show i.exec code = (.error .syntaxError, i) from by simp [Interp.exec, hp]]
    exact ⟨hg, rfl⟩
  · rcases r with _ | prog
    · rw [show i.exec code = (.error .eofError, i) from by simp [Interp.exec, hp]]
      exact ⟨hg, rfl⟩
    · rcases hr : run prog i.wrap_values i.max_ops (i.max_ops + 1) (mkCfg i) with ⟨g, res⟩
      have hx := exec_eq_run hp hr
      have hinv := @run_tape_inv prog i.wrap_values i.max_ops
        (i.max_ops + 1) (mkCfg i) (by simpa [mkCfg] using hg)
      rw [hr] at hinv
      rw [hx]
      rcases res with _ | e <;> simpa [mkCfg] using hinv

/-- C8: across any sequence of `exec` calls on one engine the cursor
satisfies `0 <= cursor < len(mem)` (the lower bound holds by the `Nat`
representation, mirroring Python's guard `pointer == 0`): the tape length
never changes and an in-bounds cursor stays in bounds, because a pointer
increment at the last tape index and a pointer decrement at index 0 fail
with `IndexError` (`OutOfBounds`) without moving the cursor, only the
metric counters having been updated. -/
theorem cursor_in_bounds_invariant :
    (∀ (i : Interp) (codes : List (List Nat)), i.pointer < i.mem.length →
       (execList i codes).2.pointer < (execList i codes).2.mem.length ∧
       (execList i codes).2.mem.length = i.mem.length) ∧
    (∀ code w mo (g : Cfg), code.get? g.k = some 62 → g.ptr = g.mem.length - 1 →
       ¬ mo < g.ops + 1 → step code w mo g = .fail .indexError (bump 62 g)) ∧
    (∀ code w mo (g : Cfg), code.get? g.k = some 60 → g.ptr = 0 →
       ¬ mo < g.ops + 1 → step code w mo g = .fail .indexError (bump 60 g)) := by
  refine ⟨?_, ?_, ?_⟩
  · intro i codes
    induction codes generalizing i with
    | nil => intro hg; exact ⟨hg, rfl⟩
    | cons c cs ih =>
      intro hg
      have hEL : execList i (c :: cs) = (match i.exec c with
        | (.ok _, i2) => execList i2 cs
        | (.error e, i2) => (.error e, i2)) := rfl
      rcases hx : i.exec c with ⟨r, i2⟩
      rw [hEL, hx]
      have h1 := exec_tape_inv i c hg
      rw [hx] at h1
      rcases r with e | m
      · simpa using h1
      · have h2 := ih i2 (by simpa using h1.1)
        have h3 : (execList i2 cs).2.mem.length = i.mem.length := by
          rw [h2.2]
          simpa using h1.2
        simpa using ⟨h2.1, h3⟩
  · intro code w mo g hk hptr hbudget
    have hk2 : code[g.k]? = some 62 := by simpa using hk
    simp [step, stepAt, bump, hk2, hbudget, hptr]
  · intro code w mo g hk hptr hbudget
    have hk2 : code[g.k]? = some 60 := by simpa using hk
    simp [step, stepAt, bump, hk2, hbudget, hptr]

/-- Witness for `cursor_in_bounds_invariant`: the bug-free fragment pair
from the interpreter's docstring, plus the two edge guards at concrete
configurations. -/
theorem cursor_in_bounds_invariant_witness :
    ((execList (Interp.mk [0, 0] 0 [] [] false 100)
        [[43, 43, 43], [91, 62, 46, 43, 43, 60, 45, 93, 62], [46, 60]]).2.pointer <
      (execList (Interp.mk [0, 0] 0 [] [] false 100)
        [[43, 43, 43], [91, 62, 46, 43, 43, 60, 45, 93, 62], [46, 60]]).2.mem.length ∧
     (execList (Interp.mk [0, 0] 0 [] [] false 100)
        [[43, 43, 43], [91, 62, 46, 43, 43, 60, 45, 93, 62], [46, 60]]).2.mem.length =
      (Interp.mk [0, 0] 0 [] [] false 100).mem.length) ∧
    step [62] false 100 (Cfg.mk 0 [5, 6] 1 [] [] [] 0 0 0 0 0) =
      .fail .indexError (bump 62 (Cfg.mk 0 [5, 6] 1 [] [] [] 0 0 0 0 0)) ∧
    step [60] false 100 (Cfg.mk 0 [5, 6] 0 [] [] [] 0 0 0 0 0) =
      .fail .indexError (bump 60 (Cfg.mk 0 [5, 6] 0 [] [] [] 0 0 0 0 0)) :=
  ⟨cursor_in_bounds_invariant.1 (Interp.mk [0, 0] 0 [] [] false 100)
      [[43, 43, 43], [91, 62, 46, 43, 43, 60, 45, 93, 62], [46, 60]] (by decide),
   cursor_in_bounds_invariant.2.1 [62] false 100 (Cfg.mk 0 [5, 6] 1 [] [] [] 0 0 0 0 0)
      rfl rfl (by decide),
   cursor_in_bounds_invariant.2.2 [60] false 100 (Cfg.mk 0 [5, 6] 0 [] [] [] 0 0 0 0 0)
      rfl rfl (by decide)⟩

/-! ## Claim C9: the metric counters of a successful run -/

/-- Unfolding a parse call on a fresh parser instance. -/
theorem parseCall_fresh (code : List Nat) :
    parseCall freshParserState code = (match parseRun 0 [] code with
      | .error e => .error e
      | .ok (c, buf) =>
        if 0 < c then .ok (⟨c, some buf⟩, none) else .ok (⟨0, none⟩, some buf)) := rfl

/-- Unfolding a one-shot parse in terms of the parser loop. -/
theorem parseFresh_eq (code : List Nat) :
    parseFresh code = (match parseRun 0 [] code with
      | .error e => .error e
      | .ok (c, buf) => if 0 < c then .ok none else .ok (some buf)) := by
  unfold parseFresh
  rw [parseCall_fresh]
  rcases parseRun 0 [] code with e | ⟨c, buf⟩
  · rfl
  · by_cases hc : 0 < c <;> simp [hc]

/-- Appending an operator byte to an all-operator buffer keeps it
all-operator. -/
theorem all_ops_append {buf : List Nat} {y : Nat}
    (hb : ∀ x ∈ buf, isOpTok x) (hy : isOpTok y) : ∀ x ∈ buf ++ [y], isOpTok x := by
  intro x hx
  rcases List.mem_append.mp hx with h | h
  · exact hb x h
  · rw [List.mem_singleton.mp h]
    exact hy

/-- One parser-loop iteration only ever appends operator bytes. -/
theorem parseTok_all_ops {c : Nat} {buf : List Nat} {t c3 : Nat} {buf3 : List Nat}
    (h : parseTok c buf t = .ok (c3, buf3)) (hb : ∀ x ∈ buf, isOpTok x) :
    ∀ x ∈ buf3, isOpTok x := by
  unfold parseTok at h
  by_cases hop : isOpTok t
  · rw [if_neg (by simpa using hop)] at h
    repeat' split at h
    all_goals first
      | exact Except.noConfusion h
      | (injection h with h1
         injection h1 with e1 e2
         subst e1
         subst e2
         exact all_ops_append hb (by decide))
      | (injection h with h1
         injection h1 with e1 e2
         subst e1
         subst e2
         exact all_ops_append hb hop)
  · rw [if_pos (by simpa using hop)] at h
    injection h with h1
    injection h1 with e1 e2
    subst e1
    subst e2
    exact hb

/-- The whole parser loop only ever appends operator bytes. -/
theorem parseRun_all_ops :
    ∀ (code : List Nat) (c : Nat) (buf : List Nat) (c2 : Nat) (buf2 : List Nat),
      parseRun c buf code = .ok (c2, buf2) → (∀ t ∈ buf, isOpTok t) →
      ∀ t ∈ buf2, isOpTok t := by
  intro code
  induction code with
  | nil =>
    intro c buf c2 buf2 h hb
    injection h with h1
    injection h1 with e1 e2
    subst e1
    subst e2
    exact hb
  | cons t ts ih =>
    intro c buf c2 buf2 h hb
    rw [show parseRun c buf (t :: ts) = (match parseTok c buf t with
      | .error e => .error e
      | .ok (c3, b3) => parseRun c3 b3 ts) from rfl] at h
    rcases hpt : parseTok c buf t with e | ⟨c3, buf3⟩ <;> rw [hpt] at h
    · exact Except.noConfusion h
    · exact ih c3 buf3 c2 buf2 h (parseTok_all_ops hpt hb)

/-- Every byte of a complete parsed program is one of the eight operators. -/
theorem parseFresh_all_ops {code prog : List Nat}
    (h : parseFresh code = .ok (some prog)) : ∀ t ∈ prog, isOpTok t := by
  rw [parseFresh_eq] at h
  rcases hpr : parseRun 0 [] code with e | ⟨c, buf⟩ <;> rw [hpr] at h
  · exact Except.noConfusion h
  · dsimp only at h
    by_cases hc : 0 < c
    · rw [if_pos hc] at h
      simp at h
    · rw [if_neg hc] at h
      obtain rfl : buf = prog := by
        injection h with h1
        cases h1
        rfl
      exact parseRun_all_ops code 0 [] c buf hpr (by intro t ht; cases ht)

/-- Bumping the counters for an operator byte adds one to the total and
one to exactly one bucket. -/
theorem bump_sum {instr : Nat} (hop : isOpTok instr) (g : Cfg)
    (hs : g.ops = g.vc + g.pc + g.ioc + g.jc) :
    (bump instr g).ops =
      (bump instr g).vc + (bump instr g).pc + (bump instr g).ioc + (bump instr g).jc := by
  have hcase : instr = 43 ∨ instr = 45 ∨ instr = 62 ∨ instr = 60 ∨ instr = 91 ∨
      instr = 93 ∨ instr = 44 ∨ instr = 46 := by
    simpa [isOpTok, or_assoc] using hop
  rcases hcase with rfl | rfl | rfl | rfl | rfl | rfl | rfl | rfl <;> simp [bump] <;> omega

/-- Over an all-operator code, the loop keeps the total counter equal to
the sum of the four bucket counters. -/
theorem run_metrics_sum {code : List Nat} {w : Bool} {mo : Nat}
    (hall : ∀ t ∈ code, isOpTok t) (fuel : Nat) (g : Cfg)
    (hg : g.ops = g.vc + g.pc + g.ioc + g.jc) :
    (run code w mo fuel g).1.ops = (run code w mo fuel g).1.vc +
      (run code w mo fuel g).1.pc + (run code w mo fuel g).1.ioc +
      (run code w mo fuel g).1.jc := by
  refine run_preserve (fun g2 => g2.ops = g2.vc + g2.pc + g2.ioc + g2.jc) ?_ ?_ fuel g hg
  · intro ga gb hs hp
    unfold step at hs
    rcases hk : code.get? ga.k with _ | instr <;> rw [hk] at hs
    · exact StepRes.noConfusion hs
    · have hop : isOpTok instr := hall instr (List.get?_mem hk)
      obtain ⟨h1, h2, h3, h4, h5, _⟩ := stepAt_next_inv hs
      rw [h1, h2, h3, h4, h5]
      exact bump_sum hop ga hp
  · intro ga e gb hs hp
    obtain ⟨instr, hk, rfl⟩ := step_fail_cfg hs
    have hop : isOpTok instr := hall instr (List.get?_mem hk)
    exact bump_sum hop ga hp

/-- C9: the metrics object returned by a successful `exec` call has five
counters (all `Nat`, hence non-negative integers), and the total-op count
equals the sum of the value-, pointer-, io- and jump-op counts. -/
theorem metrics_total_eq_sum (i : Interp) (code : List Nat) (m : Metrics) (i2 : Interp)
    (h : i.exec code = (.ok m, i2)) :
    m.ops_count = m.value_ops_count + m.pointer_ops_count + m.io_ops_count +
      m.jump_ops_count := by
  rcases hp : parseFresh code with e | r
  · rw [show i.exec code = (.error .syntaxError, i) from by simp [Interp.exec, hp]] at h
    exact absurd h (by simp)
  · rcases r with _ | prog
    · rw [show i.exec code = (.error .eofError, i) from by simp [Interp.exec, hp]] at h
      exact absurd h (by simp)
    · rcases hr : run prog i.wrap_values i.max_ops (i.max_ops + 1) (mkCfg i) with ⟨g, res⟩
      have hx := exec_eq_run hp hr
      rw [h] at hx
      rcases res with _ | e
      · obtain rfl : m = metricsOf g := by
          have h1 := congrArg Prod.fst hx
          simpa using h1
        have hsum := @run_metrics_sum prog i.wrap_values i.max_ops
          (parseFresh_all_ops hp) (i.max_ops + 1) (mkCfg i) (by simp [mkCfg])
        rw [hr] at hsum
        simpa [metricsOf] using hsum
      · simp at hx

/-- Witness for `metrics_total_eq_sum`: the program `"++[.-]"` returns the
metrics (2 value-ops... computed as 4, 0, 2, 3 with total 9). -/
theorem metrics_total_eq_sum_witness :
    (Metrics.mk 4 0 2 3 9).ops_count = (Metrics.mk 4 0 2 3 9).value_ops_count +
      (Metrics.mk 4 0 2 3 9).pointer_ops_count + (Metrics.mk 4 0 2 3 9).io_ops_count +
      (Metrics.mk 4 0 2 3 9).jump_ops_count :=
  metrics_total_eq_sum (Interp.mk [0, 0, 0, 0] 0 [] [] false 100)
    [43, 43, 91, 46, 45, 93] (Metrics.mk 4 0 2 3 9)
    (Interp.mk [0, 0, 0, 0] 0 [] [2, 1] false 100) rfl

/-! ## Claim C7: incremental parsing -/

/-- The parser loop over a concatenation runs the two pieces in sequence. -/
theorem parseRun_append :
    ∀ (x y : List Nat) (c : Nat) (buf : List Nat),
      parseRun c buf (x ++ y) = (match parseRun c buf x with
        | .error e => .error e
        | .ok (c2, b2) => parseRun c2 b2 y) := by
  intro x
  induction x with
  | nil => intro y c buf; rfl
  | cons t ts ih =>
    intro y c buf
    show parseRun c buf (t :: (ts ++ y)) = _
    rw [show parseRun c buf (t :: (ts ++ y)) = (match parseTok c buf t with
      | .error e => .error e
      | .ok (c3, b3) => parseRun c3 b3 (ts ++ y)) from rfl]
    rw [show parseRun c buf (t :: ts) = (match parseTok c buf t with
      | .error e => .error e
      | .ok (c3, b3) => parseRun c3 b3 ts) from rfl]
    rcases hpt : parseTok c buf t with e | ⟨c3, buf3⟩
    · rfl
    · exact ih y c3 buf3

/-- C7: a parse call ending with a positive nesting counter returns the
incomplete signal (`None`) and retains counter and buffer verbatim, and
the next call on that instance behaves exactly as if the retained input
were prepended; the spec's concrete splits of `"++++[.-]"` reassemble the
identical program. -/
theorem parse_incremental_prepends :
    (∀ (code1 : List Nat) (c : Nat) (buf : List Nat),
       parseRun 0 [] code1 = .ok (c, buf) → 0 < c →
       parseCall freshParserState code1 = .ok (⟨c, some buf⟩, none) ∧
       ∀ code2, parseCall ⟨c, some buf⟩ code2 =
         parseCall freshParserState (code1 ++ code2)) ∧
    parseCall freshParserState [43, 43, 43, 43, 91] =
      .ok (⟨1, some [43, 43, 43, 43, 91]⟩, none) ∧
    parseCall ⟨1, some [43, 43, 43, 43, 91]⟩ [46, 45, 93] =
      .ok (⟨0, none⟩, some [43, 43, 43, 43, 91, 46, 45, 93]) ∧
    parseCall ⟨1, some [43, 43, 43, 43, 91]⟩ [46, 45] =
      .ok (⟨1, some [43, 43, 43, 43, 91, 46, 45]⟩, none) ∧
    parseCall ⟨1, some [43, 43, 43, 43, 91, 46, 45]⟩ [93] =
      .ok (⟨0, none⟩, some [43, 43, 43, 43, 91, 46, 45, 93]) := by
  refine ⟨?_, rfl, rfl, rfl, rfl⟩
  intro code1 c buf h hc
  constructor
  · rw [parseCall_fresh, h]
    dsimp only
    rw [if_pos hc]
  · intro code2
    rw [parseCall_fresh, parseRun_append, h]
    rfl

/-- Witness for `parse_incremental_prepends`: the retained state after
`"++++["` prepends to `".-]"`. -/
theorem parse_incremental_prepends_witness :
    parseCall ⟨1, some [43, 43, 43, 43, 91]⟩ [46, 45, 93] =
      parseCall freshParserState ([43, 43, 43, 43, 91] ++ [46, 45, 93]) :=
  (parse_incremental_prepends.1 [43, 43, 43, 43, 91] 1 [43, 43, 43, 43, 91]
    rfl (by decide)).2 [46, 45, 93]


/-! ## Claim C6, part 1: structural facts about complete parsed programs -/

/-- A position holding a value is inside the list. -/
theorem get?_some_lt {l : List Nat} {n a : Nat} (h : l.get? n = some a) : n < l.length := by
  by_contra hn
  rw [List.get?_eq_none.mpr (by omega)] at h
  cases h

@[simp] theorem intDepth_nil : intDepth [] = 0 := rfl

theorem intDepth_append (a b : List Nat) : intDepth (a ++ b) = intDepth a + intDepth b := by
  simp [intDepth]
  ring

theorem intDepth_singleton (t : Nat) :
    intDepth [t] = (if t = 91 then 1 else if t = 93 then (-1 : Int) else 0) := by
  by_cases h1 : t = 91
  · subst h1
    norm_num [intDepth]
  · by_cases h3 : t = 93
    · subst h3
      norm_num [intDepth]
    · rw [if_neg h1, if_neg h3]
      have e1 : List.count 91 [t] = 0 := by
        simp [List.count_singleton']
        omega
      have e3 : List.count 93 [t] = 0 := by
        simp [List.count_singleton']
        omega
      rw [intDepth, e1, e3]
      ring

/-- Index lookup in a list extended by one element. -/
theorem get?_concat {b : List Nat} {y : Nat} (j : Nat) :
    (b ++ [y]).get? j =
      (if j < b.length then b.get? j else if j = b.length then some y else none) := by
  by_cases h1 : j < b.length
  · rw [if_pos h1]
    simp [List.getElem?_append_left h1]
  · rw [if_neg h1]
    by_cases h2 : j = b.length
    · subst h2
      simp
    · rw [if_neg h2]
      rw [List.get?_eq_none.mpr (by simp; omega)]

/-- Appending a byte other than a close bracket cannot create an empty
loop body; appending a close bracket is safe when the last kept byte is
not an open bracket. -/
theorem noEmpty_concat {b : List Nat} {y : Nat} (hne : NoEmpty b)
    (hy : y = 93 → b.getLast? ≠ some 91) : NoEmpty (b ++ [y]) := by
  intro j ⟨h1, h2⟩
  rw [get?_concat] at h1 h2
  by_cases hj1 : j + 1 < b.length
  · have hj : j < b.length := by omega
    rw [if_pos hj] at h1
    rw [if_pos hj1] at h2
    exact hne j ⟨h1, h2⟩
  · by_cases hj2 : j + 1 = b.length
    · have hj : j < b.length := by omega
      rw [if_pos hj] at h1
      rw [if_neg (show ¬ j + 1 < b.length by omega)] at h2
      rw [if_pos hj2] at h2
      have hy93 : y = 93 := by injection h2
      have hlast : b.getLast? = some 91 := by
        rw [List.getLast?_eq_getElem?]
        have : b.length - 1 = j := by omega
        rw [this, ← List.get?_eq_getElem?]
        exact h1
      exact hy (hy93) hlast
    · by_cases hj : j < b.length
      · rw [if_neg (by omega), if_neg (by omega)] at h2
        cases h2
      · rw [if_neg hj] at h1
        by_cases hj0 : j = b.length
        · rw [if_pos hj0] at h1
          rw [if_neg (by omega), if_neg (by omega)] at h2
          cases h2
        · rw [if_neg hj0] at h1
          cases h1

/-- Prefix nonnegativity survives appending one byte whose own
contribution keeps the total nonnegative. -/
theorem prefixOk_concat {b : List Nat} {y : Nat}
    (hpre : ∀ n, 0 ≤ intDepth (b.take n))
    (hful : 0 ≤ intDepth (b ++ [y])) : ∀ n, 0 ≤ intDepth ((b ++ [y]).take n) := by
  intro n
  by_cases hn : n ≤ b.length
  · rw [List.take_append_of_le_length hn]
    exact hpre n
  · rw [List.take_of_length_le (by simp; omega)]
    exact hful

/-- One parser-loop iteration preserves the structural invariant tying
the nesting counter to the bracket depth of the kept buffer. -/
theorem parseTok_good {c : Nat} {b : List Nat} {t c2 : Nat} {b2 : List Nat}
    (h : parseTok c b t = .ok (c2, b2))
    (hd : (c : Int) = intDepth b) (hpre : ∀ n, 0 ≤ intDepth (b.take n))
    (hne : NoEmpty b) :
    ((c2 : Int) = intDepth b2) ∧ (∀ n, 0 ≤ intDepth (b2.take n)) ∧ NoEmpty b2 := by
  unfold parseTok at h
  by_cases hop : isOpTok t
  · rw [if_neg (by simpa using hop)] at h
    by_cases h93 : t = 93
    · rw [if_pos h93] at h
      rcases hlast : b.getLast? with _ | prev <;> rw [hlast] at h
      · exact Except.noConfusion h
      · dsimp only at h
        split at h
        · exact Except.noConfusion h
        · rename_i hguard
          injection h with h1
          injection h1 with e1 e2
          subst e1
          subst e2
          have hc0 : c ≠ 0 := by
            intro hc
            rw [hc] at hguard
            simp at hguard
          have hprev : prev ≠ 91 := by
            intro hp
            rw [hp] at hguard
            simp at hguard
          clear hguard
          have hdep : intDepth (b ++ [93]) = intDepth b - 1 := by
            rw [intDepth_append, intDepth_singleton]
            norm_num
            all_goals omega
          refine ⟨?_, ?_, ?_⟩
          · rw [hdep, ← hd]
            omega
          · refine prefixOk_concat hpre ?_
            rw [hdep, ← hd]
            omega
          · refine noEmpty_concat hne ?_
            intro _ hcon
            rw [hlast] at hcon
            injection hcon with h2
            exact hprev h2
    · rw [if_neg h93] at h
      by_cases h91 : t = 91
      · rw [if_pos h91] at h
        injection h with h1
        injection h1 with e1 e2
        subst e1
        subst e2
        have hdep : intDepth (b ++ [91]) = intDepth b + 1 := by
          rw [intDepth_append, intDepth_singleton]
          norm_num
        refine ⟨?_, ?_, ?_⟩
        · rw [hdep, ← hd]
          push_cast
          ring
        · refine prefixOk_concat hpre ?_
          rw [hdep, ← hd]
          omega
        · refine noEmpty_concat hne ?_
          intro hcon
          cases hcon
      · rw [if_neg h91] at h
        injection h with h1
        injection h1 with e1 e2
        subst e1
        subst e2
        have hdep : intDepth (b ++ [t]) = intDepth b := by
          rw [intDepth_append, intDepth_singleton, if_neg h91, if_neg h93]
          ring
        refine ⟨?_, ?_, ?_⟩
        · rw [hdep, ← hd]
        · refine prefixOk_concat hpre ?_
          rw [hdep, ← hd]
          omega
        · refine noEmpty_concat hne ?_
          intro hcon
          exact absurd hcon h93
  · rw [if_pos (by simpa using hop)] at h
    injection h with h1
    injection h1 with e1 e2
    subst e1
    subst e2
    exact ⟨hd, hpre, hne⟩

/-- The parser loop preserves the structural invariant. -/
theorem parseRun_good :
    ∀ (code : List Nat) (c : Nat) (b : List Nat) (c2 : Nat) (b2 : List Nat),
      parseRun c b code = .ok (c2, b2) →
      ((c : Int) = intDepth b) → (∀ n, 0 ≤ intDepth (b.take n)) → NoEmpty b →
      ((c2 : Int) = intDepth b2) ∧ (∀ n, 0 ≤ intDepth (b2.take n)) ∧ NoEmpty b2 := by
  intro code
  induction code with
  | nil =>
    intro c b c2 b2 h hd hpre hne
    injection h with h1
    injection h1 with e1 e2
    subst e1
    subst e2
    exact ⟨hd, hpre, hne⟩
  | cons t ts ih =>
    intro c b c2 b2 h hd hpre hne
    rw [show parseRun c b (t :: ts) = (match parseTok c b t with
      | .error e => .error e
      | .ok (c3, b3) => parseRun c3 b3 ts) from rfl] at h
    rcases hpt : parseTok c b t with e | ⟨c3, b3⟩ <;> rw [hpt] at h
    · exact Except.noConfusion h
    · obtain ⟨hd3, hpre3, hne3⟩ := parseTok_good hpt hd hpre hne
      exact ih c3 b3 c2 b2 h hd3 hpre3 hne3

/-- A complete parsed program is balanced, prefix-nonnegative and has no
empty loop body. -/
theorem parseFresh_good {code A : List Nat}
    (h : parseFresh code = .ok (some A)) : GoodProg A := by
  rw [parseFresh_eq] at h
  rcases hpr : parseRun 0 [] code with e | ⟨c, buf⟩ <;> rw [hpr] at h
  · exact Except.noConfusion h
  · dsimp only at h
    by_cases hc : 0 < c
    · rw [if_pos hc] at h
      simp at h
    · rw [if_neg hc] at h
      obtain rfl : buf = A := by
        injection h with h1
        cases h1
        rfl
      obtain ⟨hd, hpre, hne⟩ := parseRun_good code 0 [] c buf hpr (by simp)
        (by intro n; simp) (by intro j hj; simp at hj)
      have hc0 : c = 0 := by omega
      exact ⟨by rw [← hd, hc0]; simp, hpre, hne⟩


/-! ## Claim C6, part 2: facts about the loop-skip scan -/

/-- Unfolding one step of the scan. -/
theorem skipScan_succ (A : List Nat) (k c fuel : Nat) :
    skipScan A k c (fuel + 1) = (match A.get? k with
      | none => none
      | some instr =>
        if instr ≠ 93 ∨ 0 < c then
          skipScan A (k + 1) (if instr = 91 then c + 1 else if instr = 93 then c - 1 else c) fuel
        else some k) := rfl

/-- A successful scan stops at or after its start, on a close bracket. -/
theorem skipScan_some_facts {A : List Nat} :
    ∀ (fuel k c : Nat) {j : Nat}, skipScan A k c fuel = some j →
      k ≤ j ∧ A.get? j = some 93 := by
  intro fuel
  induction fuel with
  | zero => intro k c j h; cases h
  | succ n ih =>
    intro k c j h
    rw [skipScan_succ] at h
    rcases hk : A.get? k with _ | instr <;> rw [hk] at h
    · cases h
    · dsimp only at h
      by_cases hcond : instr ≠ 93 ∨ 0 < c
      · rw [if_pos hcond] at h
        obtain ⟨h1, h2⟩ := ih (k + 1) _ h
        exact ⟨by omega, h2⟩
      · rw [if_neg hcond] at h
        obtain rfl : k = j := by injection h
        push_neg at hcond
        rw [hcond.1] at hk
        exact ⟨le_refl k, hk⟩

/-- A successful scan succeeds identically with any larger fuel. -/
theorem skipScan_fuel_le {A : List Nat} :
    ∀ (fuel k c : Nat) {j : Nat}, skipScan A k c fuel = some j →
      ∀ f2, fuel ≤ f2 → skipScan A k c f2 = some j := by
  intro fuel
  induction fuel with
  | zero => intro k c j h; cases h
  | succ n ih =>
    intro k c j h f2 hf
    obtain ⟨m, rfl⟩ : ∃ m, f2 = m + 1 := ⟨f2 - 1, by omega⟩
    rw [skipScan_succ] at h
    rw [skipScan_succ]
    rcases hk : A.get? k with _ | instr
    · rw [hk] at h
      dsimp only at h
      cases h
    · rw [hk] at h
      dsimp only at h
      dsimp only
      by_cases hcond : instr ≠ 93 ∨ 0 < c
      · rw [if_pos hcond] at h
        rw [if_pos hcond]
        exact ih (k + 1) _ h m (by omega)
      · rw [if_neg hcond] at h
        rw [if_neg hcond]
        exact h

/-- Scanning with a smaller starting counter stops no later; with a
strictly smaller counter it stops strictly earlier. -/
theorem skipScan_mono {A : List Nat} :
    ∀ (fuel k c c2 : Nat) {j2 : Nat}, skipScan A k c2 fuel = some j2 → c ≤ c2 →
      ∃ j, j ≤ j2 ∧ skipScan A k c fuel = some j ∧ (c < c2 → j < j2) := by
  intro fuel
  induction fuel with
  | zero => intro k c c2 j2 h; cases h
  | succ n ih =>
    intro k c c2 j2 h hc
    rw [skipScan_succ] at h
    rcases hk : A.get? k with _ | instr <;> rw [hk] at h
    · cases h
    · dsimp only at h
      by_cases h93 : instr = 93
      · subst h93
        by_cases hc2 : 0 < c2
        · rw [if_pos (Or.inr hc2)] at h
          by_cases hcl : 0 < c
          · obtain ⟨j, hj1, hj2, hj3⟩ := ih (k + 1) (c - 1) (c2 - 1) h (by omega)
            refine ⟨j, hj1, ?_, fun hlt => hj3 (by omega)⟩
            rw [skipScan_succ, hk]
            dsimp only
            rw [if_pos (Or.inr hcl)]
            simpa using hj2
          · have hc0 : c = 0 := by omega
            subst hc0
            refine ⟨k, ?_, ?_, ?_⟩
            · exact (skipScan_some_facts n (k + 1) _ h).1.trans_lt' (by omega) |>.le
            · rw [skipScan_succ, hk]
              dsimp only
              rw [if_neg (by simp)]
            · intro _
              have := (skipScan_some_facts n (k + 1) _ h).1
              omega
        · have hc20 : c2 = 0 := by omega
          subst hc20
          rw [if_neg (by simp)] at h
          obtain rfl : k = j2 := by injection h
          have hc0 : c = 0 := by omega
          subst hc0
          refine ⟨k, le_refl k, ?_, by omega⟩
          rw [skipScan_succ, hk]
          dsimp only
          rw [if_neg (by simp)]
      · rw [if_pos (Or.inl h93)] at h
        have hupd : c ≤ c2 → (if instr = 91 then c + 1 else if instr = 93 then c - 1 else c) ≤
            (if instr = 91 then c2 + 1 else if instr = 93 then c2 - 1 else c2) := by
          intro hcc
          by_cases h91 : instr = 91 <;> simp [h91, h93] <;> omega
        obtain ⟨j, hj1, hj2, hj3⟩ := ih (k + 1) _ _ h (hupd hc)
        refine ⟨j, hj1, ?_, fun hlt => hj3 ?_⟩
        · rw [skipScan_succ, hk]
          dsimp only
          rw [if_pos (Or.inl h93)]
          exact hj2
        · by_cases h91 : instr = 91 <;> simp [h91, h93] <;> omega


theorem intDepth_cons (x : Nat) (l : List Nat) :
    intDepth (x :: l) =
      (if x = 91 then 1 else if x = 93 then (-1 : Int) else 0) + intDepth l := by
  rw [show x :: l = [x] ++ l from rfl, intDepth_append, intDepth_singleton]

/-- Dropping one more position removes that position's contribution. -/
theorem intDepth_drop_succ {A : List Nat} {k instr : Nat} (h : A.get? k = some instr) :
    intDepth (A.drop k) =
      (if instr = 91 then 1 else if instr = 93 then (-1 : Int) else 0) +
        intDepth (A.drop (k + 1)) := by
  have hk := get?_some_lt h
  have hget : A[k] = instr := by
    have h2 := h
    rw [List.get?_eq_getElem?, List.getElem?_eq_getElem hk] at h2
    injection h2
  rw [List.drop_eq_getElem_cons hk, intDepth_cons, hget]

/-- If the remaining suffix closes more brackets than the counter holds
open, the scan finds an exit before the end of the code. -/
theorem skipScan_exists {A : List Nat} :
    ∀ (fuel k c : Nat), (c : Int) + intDepth (A.drop k) < 0 → A.length ≤ k + fuel →
      ∃ j, skipScan A k c fuel = some j := by
  intro fuel
  induction fuel with
  | zero =>
    intro k c hdep hlen
    rw [List.drop_eq_nil_of_le (by omega), intDepth_nil] at hdep
    omega
  | succ n ih =>
    intro k c hdep hlen
    rcases hk : A.get? k with _ | instr
    · rw [List.get?_eq_none] at hk
      rw [List.drop_eq_nil_of_le hk, intDepth_nil] at hdep
      omega
    · rw [intDepth_drop_succ hk] at hdep
      by_cases h93 : instr = 93
      · subst h93
        by_cases hc : 0 < c
        · obtain ⟨j, hj⟩ := ih (k + 1) (c - 1)
            (by rw [if_neg (by omega), if_pos rfl] at hdep; push_cast [hc]; omega)
            (by omega)
          refine ⟨j, ?_⟩
          rw [skipScan_succ, hk]
          dsimp only
          rw [if_pos (Or.inr hc)]
          simpa using hj
        · refine ⟨k, ?_⟩
          rw [skipScan_succ, hk]
          dsimp only
          rw [if_neg (by simp; omega)]
      · have harg : (((if instr = 91 then c + 1 else if instr = 93 then c - 1 else c) : Nat) : Int) +
            intDepth (A.drop (k + 1)) < 0 := by
          by_cases h91 : instr = 91
          · rw [if_pos h91] at hdep ⊢
            push_cast
            omega
          · rw [if_neg h91, if_neg h93] at hdep ⊢
            omega
        obtain ⟨j, hj⟩ := ih (k + 1) _ harg (by omega)
        refine ⟨j, ?_⟩
        rw [skipScan_succ, hk]
        dsimp only
        rw [if_pos (Or.inl h93)]
        exact hj

/-- Every open bracket of a balanced prefix-nonnegative program has a
successful matching scan. -/
theorem matchScan_exists {A : List Nat} (hgood : GoodProg A) {i : Nat}
    (h91 : A.get? i = some 91) : ∃ m, skipScan A (i + 1) 0 A.length = some m := by
  obtain ⟨hbal, hpre, _⟩ := hgood
  have hi := get?_some_lt h91
  have hsplit : intDepth A = intDepth (A.take (i + 1)) + intDepth (A.drop (i + 1)) := by
    conv_lhs => rw [← List.take_append_drop (i + 1) A]
    rw [intDepth_append]
  have htake : intDepth (A.take (i + 1)) = intDepth (A.take i) + 1 := by
    have hget : A[i] = 91 := by
      have h2 := h91
      rw [List.get?_eq_getElem?, List.getElem?_eq_getElem hi] at h2
      injection h2
    rw [List.take_succ, List.getElem?_eq_getElem hi, hget,
      show (some (91 : Nat)).toList = [91] from rfl, intDepth_append, intDepth_singleton]
    norm_num
  refine skipScan_exists A.length (i + 1) 0 ?_ (by omega)
  have h1 := hpre i
  rw [hbal] at hsplit
  push_cast
  omega

/-- A scan over a prefix is also a scan over any extension. -/
theorem skipScan_append {A B : List Nat} :
    ∀ (fuel k c : Nat) {j : Nat}, skipScan A k c fuel = some j →
      skipScan (A ++ B) k c fuel = some j := by
  intro fuel
  induction fuel with
  | zero => intro k c j h; cases h
  | succ n ih =>
    intro k c j h
    rw [skipScan_succ] at h
    rcases hk : A.get? k with _ | instr <;> rw [hk] at h
    · cases h
    · dsimp only at h
      have hlt := get?_some_lt hk
      have hk2 : (A ++ B).get? k = some instr := by
        rw [List.get?_eq_getElem?, List.getElem?_append_left hlt, ← List.get?_eq_getElem?]
        exact hk
      rw [skipScan_succ, hk2]
      dsimp only
      by_cases hcond : instr ≠ 93 ∨ 0 < c
      · rw [if_pos hcond] at h ⊢
        exact ih (k + 1) _ h
      · rw [if_neg hcond] at h ⊢
        exact h

/-- A scan over the right part of a concatenation shifts by the length of
the left part. -/
theorem skipScan_shift {A B : List Nat} :
    ∀ (fuel k c : Nat) {j : Nat}, skipScan B k c fuel = some j →
      skipScan (A ++ B) (A.length + k) c fuel = some (A.length + j) := by
  intro fuel
  induction fuel with
  | zero => intro k c j h; cases h
  | succ n ih =>
    intro k c j h
    rw [skipScan_succ] at h
    rcases hk : B.get? k with _ | instr <;> rw [hk] at h
    · cases h
    · dsimp only at h
      have hk2 : (A ++ B).get? (A.length + k) = some instr := by
        rw [List.get?_eq_getElem?, List.getElem?_append_right (by omega)]
        have : A.length + k - A.length = k := by omega
        rw [this, ← List.get?_eq_getElem?]
        exact hk
      rw [skipScan_succ, hk2]
      dsimp only
      by_cases hcond : instr ≠ 93 ∨ 0 < c
      · rw [if_pos hcond] at h ⊢
        have := ih (k + 1) _ h
        rw [show A.length + k + 1 = A.length + (k + 1) from by omega]
        exact this
      · rw [if_neg hcond] at h ⊢
        injection h with h1
        rw [← h1]


/-- A scan that passes over an open bracket reaches that bracket's
successor with a positive counter and the same final stop. -/
theorem skipScan_pass {A : List Nat} :
    ∀ (fuel k c : Nat) {j t : Nat}, skipScan A k c fuel = some j →
      A.get? t = some 91 → k ≤ t → t < j →
      ∃ ct, 1 ≤ ct ∧ skipScan A (t + 1) ct fuel = some j := by
  intro fuel
  induction fuel with
  | zero => intro k c j t h; cases h
  | succ n ih =>
    intro k c j t h ht91 hkt htj
    rw [skipScan_succ] at h
    rcases hk : A.get? k with _ | instr <;> rw [hk] at h
    · cases h
    · dsimp only at h
      by_cases hcond : instr ≠ 93 ∨ 0 < c
      · rw [if_pos hcond] at h
        by_cases hkeq : k = t
        · subst hkeq
          obtain rfl : instr = 91 := by
            rw [hk] at ht91
            injection ht91
          rw [if_pos rfl] at h
          exact ⟨c + 1, by omega, skipScan_fuel_le n (k + 1) (c + 1) h (n + 1) (by omega)⟩
        · obtain ⟨ct, h1, h2⟩ := ih (k + 1) _ h ht91 (by omega) htj
          exact ⟨ct, h1, skipScan_fuel_le n (t + 1) ct h2 (n + 1) (by omega)⟩
      · rw [if_neg hcond] at h
        obtain rfl : k = j := by injection h
        omega

/-- Proper nesting: an open bracket strictly inside another loop closes
strictly before the outer loop does. -/
theorem matchScan_nested {A : List Nat} (hgood : GoodProg A) {g t m1 : Nat}
    (hg : A.get? g = some 91) (hm1 : skipScan A (g + 1) 0 A.length = some m1)
    (ht91 : A.get? t = some 91) (h1 : g < t) (h2 : t < m1) :
    ∃ m0, skipScan A (t + 1) 0 A.length = some m0 ∧ m0 < m1 := by
  obtain ⟨ct, hct, hpass⟩ := skipScan_pass A.length (g + 1) 0 hm1 ht91 (by omega) h2
  obtain ⟨m0, hle, hscan, hstrict⟩ := skipScan_mono A.length (t + 1) 0 ct hpass (by omega)
  exact ⟨m0, hscan, hstrict (by omega)⟩

/-- The source's skip scan (which starts at `k + 2`) stops no later than
the bracket's true matching scan (which starts at `k + 1`). -/
theorem skipScanBug_le_match {A : List Nat} (hgood : GoodProg A) {i m : Nat}
    (h91 : A.get? i = some 91) (hm : skipScan A (i + 1) 0 A.length = some m) :
    ∃ j, skipScan A (i + 2) 0 A.length = some j ∧ j ≤ m := by
  obtain ⟨L, hL⟩ : ∃ L, A.length = L + 1 := ⟨A.length - 1, by have := get?_some_lt h91; omega⟩
  rw [hL, skipScan_succ] at hm
  rcases hk1 : A.get? (i + 1) with _ | t <;> rw [hk1] at hm
  · cases hm
  · dsimp only at hm
    have ht93 : t ≠ 93 := by
      intro he
      exact hgood.2.2 i ⟨h91, by rw [hk1, he]⟩
    rw [if_pos (Or.inl ht93)] at hm
    obtain ⟨j, hle, hscan, _⟩ := skipScan_mono L (i + 1 + 1) 0 _ hm (by omega)
    refine ⟨j, ?_, hle⟩
    rw [hL]
    exact skipScan_fuel_le L (i + 2) 0 hscan (L + 1) (by omega)

/-! ## Claim C6, part 3: well-formedness of the jump stack -/

theorem stackOk_le_len {A : List Nat} {k : Nat} {S : List Nat}
    (h : StackOk A k S) : k ≤ A.length := by
  cases h with
  | nil hle => exact hle
  | cons h91 hm hgk hkm hrest hS =>
    have := get?_some_lt (skipScan_some_facts _ _ _ hm).2
    omega

theorem stackOk_at_len {A : List Nat} {S : List Nat}
    (h : StackOk A A.length S) : S = [] := by
  cases h with
  | nil _ => rfl
  | cons h91 hm hgk hkm hrest hS =>
    have := get?_some_lt (skipScan_some_facts _ _ _ hm).2
    omega

theorem stackOk_lt {A : List Nat} {k : Nat} {S : List Nat}
    (h : StackOk A k S) : ∀ x ∈ S, x < k := by
  cases h with
  | nil _ => intro x hx; cases hx
  | cons h91 hm hgk hkm hrest hS =>
    intro x hx
    rcases List.mem_cons.mp hx with rfl | hx2
    · exact hgk
    · exact lt_trans (hrest x hx2) hgk

/-- Advancing over a byte that is not a close bracket preserves stack
well-formedness. -/
theorem stackOk_succ {A : List Nat} {k : Nat} {S : List Nat} {instr : Nat}
    (hst : StackOk A k S) (hk : A.get? k = some instr) (h93 : instr ≠ 93) :
    StackOk A (k + 1) S := by
  cases hst with
  | nil hle => exact .nil (by have := get?_some_lt hk; omega)
  | cons h91 hm hgk hkm hrest hS =>
    rename_i g m rest
    have hm93 := (skipScan_some_facts _ _ _ hm).2
    have hne : k ≠ m := by
      intro he
      rw [he, hm93] at hk
      injection hk with h2
      exact h93 h2.symm
    exact .cons h91 hm (by omega) (by omega) hrest hS

/-- The match of a bracket opened at the current position closes before
every enclosing loop does, so the stack stays well-formed past it. -/
theorem stackOk_up {A : List Nat} (hgood : GoodProg A) {k : Nat} {S : List Nat}
    (hst : StackOk A k S) {m0 : Nat} (hk : A.get? k = some 91)
    (hm0 : skipScan A (k + 1) 0 A.length = some m0) :
    StackOk A (m0 + 1) S := by
  have hm0lt := get?_some_lt (skipScan_some_facts _ _ _ hm0).2
  cases hst with
  | nil hle => exact .nil (by omega)
  | cons h91 hm hgk hkm hrest hS =>
    rename_i g m rest
    have hk_lt_m : k < m := by
      have hm93 := (skipScan_some_facts _ _ _ hm).2
      have : k ≠ m := by
        intro he
        rw [he, hm93] at hk
        injection hk with h2
        exact absurd h2 (by decide)
      omega
    obtain ⟨m0x, hm0x, hlt⟩ := matchScan_nested hgood h91 hm hk hgk hk_lt_m
    obtain rfl : m0x = m0 := by
      rw [hm0x] at hm0
      injection hm0
    have hk1 := (skipScan_some_facts _ _ _ hm0).1
    exact .cons h91 hm (by omega) (by omega) hrest hS


/-- Shapes a successful dispatch can take, in terms of the instruction
index and the jump stack. -/
theorem stepJump_next_shape {code : List Nat} {instr : Nat} {g g2 : Cfg}
    (h : stepJump code instr g = .next g2) :
    (g2.goto = g.goto ∧ g2.k = g.k + 1 ∧ instr ≠ 91 ∧ instr ≠ 93) ∨
    (instr = 91 ∧ g2.goto = g.k :: g.goto ∧ g2.k = g.k + 1) ∨
    (instr = 91 ∧ g2.goto = g.goto ∧
      ∃ j, skipScan code (g.k + 2) 0 code.length = some j ∧ g2.k = j + 1) ∨
    (instr = 93 ∧ ∃ t rest, g.goto = t :: rest ∧ g2.goto = t :: rest ∧ g2.k = t + 1) ∨
    (instr = 93 ∧ ∃ t rest, g.goto = t :: rest ∧ g2.goto = rest ∧ g2.k = g.k + 1) := by
  unfold stepJump at h
  by_cases h91 : instr = 91
  · rw [if_pos h91] at h
    by_cases hz : g.mem.getD g.ptr 0 ≠ 0
    · rw [if_pos hz] at h
      injection h with h1
      subst h1
      exact Or.inr (Or.inl ⟨h91, rfl, rfl⟩)
    · rw [if_neg hz] at h
      rcases hs : skipScan code (g.k + 2) 0 code.length with _ | j <;> rw [hs] at h
      · exact StepRes.noConfusion h
      · injection h with h1
        subst h1
        exact Or.inr (Or.inr (Or.inl ⟨h91, rfl, j, rfl, rfl⟩))
  · rw [if_neg h91] at h
    by_cases h93 : instr = 93
    · rw [if_pos h93] at h
      rcases hg : g.goto with _ | ⟨t, rest⟩ <;> rw [hg] at h
      · exact StepRes.noConfusion h
      · dsimp only at h
        by_cases hz : g.mem.getD g.ptr 0 ≠ 0
        · rw [if_pos hz] at h
          injection h with h1
          subst h1
          exact Or.inr (Or.inr (Or.inr (Or.inl ⟨h93, t, rest, rfl, rfl, rfl⟩)))
        · rw [if_neg hz] at h
          injection h with h1
          subst h1
          exact Or.inr (Or.inr (Or.inr (Or.inr ⟨h93, t, rest, rfl, rfl, rfl⟩)))
    · rw [if_neg h93] at h
      injection h with h1
      subst h1
      exact Or.inl ⟨rfl, rfl, h91, h93⟩

theorem stepIo_next_shape {code : List Nat} {instr : Nat} {g g2 : Cfg}
    (h : stepIo code instr g = .next g2) :
    (g2.goto = g.goto ∧ g2.k = g.k + 1 ∧ instr ≠ 91 ∧ instr ≠ 93) ∨
    (instr = 91 ∧ g2.goto = g.k :: g.goto ∧ g2.k = g.k + 1) ∨
    (instr = 91 ∧ g2.goto = g.goto ∧
      ∃ j, skipScan code (g.k + 2) 0 code.length = some j ∧ g2.k = j + 1) ∨
    (instr = 93 ∧ ∃ t rest, g.goto = t :: rest ∧ g2.goto = t :: rest ∧ g2.k = t + 1) ∨
    (instr = 93 ∧ ∃ t rest, g.goto = t :: rest ∧ g2.goto = rest ∧ g2.k = g.k + 1) := by
  unfold stepIo at h
  by_cases h46 : instr = 46
  · rw [if_pos h46] at h
    injection h with h1
    subst h1
    exact Or.inl ⟨rfl, rfl, by omega, by omega⟩
  · rw [if_neg h46] at h
    by_cases h44 : instr = 44
    · rw [if_pos h44] at h
      rcases hi : g.inp with _ | ⟨b, rest⟩ <;> rw [hi] at h
      · exact StepRes.noConfusion h
      · injection h with h1
        subst h1
        exact Or.inl ⟨rfl, rfl, by omega, by omega⟩
    · rw [if_neg h44] at h
      exact stepJump_next_shape h

theorem stepAt_next_shape {code : List Nat} {w : Bool} {mo instr : Nat} {g g2 : Cfg}
    (h : stepAt code w mo instr g = .next g2) :
    (g2.goto = g.goto ∧ g2.k = g.k + 1 ∧ instr ≠ 91 ∧ instr ≠ 93) ∨
    (instr = 91 ∧ g2.goto = g.k :: g.goto ∧ g2.k = g.k + 1) ∨
    (instr = 91 ∧ g2.goto = g.goto ∧
      ∃ j, skipScan code (g.k + 2) 0 code.length = some j ∧ g2.k = j + 1) ∨
    (instr = 93 ∧ ∃ t rest, g.goto = t :: rest ∧ g2.goto = t :: rest ∧ g2.k = t + 1) ∨
    (instr = 93 ∧ ∃ t rest, g.goto = t :: rest ∧ g2.goto = rest ∧ g2.k = g.k + 1) := by
  unfold stepAt at h
  by_cases hb : mo < g.ops
  · rw [if_pos hb] at h
    exact StepRes.noConfusion h
  · rw [if_neg hb] at h
    by_cases h43 : instr = 43
    · rw [if_pos h43] at h
      split at h
      · exact StepRes.noConfusion h
      · injection h with h1
        subst h1
        exact Or.inl ⟨rfl, rfl, by omega, by omega⟩
    · rw [if_neg h43] at h
      by_cases h45 : instr = 45
      · rw [if_pos h45] at h
        split at h
        · exact StepRes.noConfusion h
        · injection h with h1
          subst h1
          exact Or.inl ⟨rfl, rfl, by omega, by omega⟩
      · rw [if_neg h45] at h
        by_cases h62 : instr = 62
        · rw [if_pos h62] at h
          split at h
          · exact StepRes.noConfusion h
          · injection h with h1
            subst h1
            exact Or.inl ⟨rfl, rfl, by omega, by omega⟩
        · rw [if_neg h62] at h
          by_cases h60 : instr = 60
          · rw [if_pos h60] at h
            split at h
            · exact StepRes.noConfusion h
            · injection h with h1
              subst h1
              exact Or.inl ⟨rfl, rfl, by omega, by omega⟩
          · rw [if_neg h60] at h
            exact stepIo_next_shape h

/-- Landing just past where the skip scan stopped keeps the stack
well-formed: the stop is bounded by the skipped bracket's own match,
which nests inside every enclosing loop. -/
theorem stackOk_retarget_skip {A : List Nat} (hgood : GoodProg A) {k : Nat}
    {S : List Nat} {j m0 : Nat} (hst : StackOk A k S) (hk : A.get? k = some 91)
    (hm0 : skipScan A (k + 1) 0 A.length = some m0) (hjle : j ≤ m0)
    (hjge : k + 2 ≤ j) (hjlt : j < A.length) : StackOk A (j + 1) S := by
  cases hst with
  | nil hle => exact .nil (by omega)
  | cons h91b hmb hgkb hkmb hrestb hSb =>
    rename_i g1 m1 rest1
    have hkm1 : k < m1 := by
      have hm193 := (skipScan_some_facts _ _ _ hmb).2
      have : k ≠ m1 := by
        intro he
        rw [he, hm193] at hk
        injection hk with h2
        exact absurd h2 (by decide)
      omega
    obtain ⟨m0x, hm0x, hm0lt⟩ := matchScan_nested hgood h91b hmb hk hgkb hkm1
    obtain rfl : m0x = m0 := by
      rw [hm0x] at hm0
      injection hm0
    exact .cons h91b hmb (by omega) (by omega) hrestb hSb

/-- A step over a structurally valid program preserves stack
well-formedness. -/
theorem step_stackOk {A : List Nat} {w : Bool} {mo : Nat} {g g2 : Cfg}
    (hgood : GoodProg A) (hst : StackOk A g.k g.goto)
    (h : step A w mo g = .next g2) : StackOk A g2.k g2.goto := by
  unfold step at h
  rcases hk : A.get? g.k with _ | instr <;> rw [hk] at h
  · exact StepRes.noConfusion h
  · have hshape := stepAt_next_shape h
    simp only [bump_k, bump_goto, bump_mem, bump_ptr] at hshape
    rcases hshape with ⟨hgoto, hkk, h91, h93⟩ | ⟨h91, hgoto, hkk⟩ |
      ⟨h91, hgoto, j, hscan, hkk⟩ | ⟨h93, t, rest, hg, hgoto, hkk⟩ |
      ⟨h93, t, rest, hg, hgoto, hkk⟩
    · rw [hgoto, hkk]
      exact stackOk_succ hst hk h93
    · subst h91
      rw [hgoto, hkk]
      obtain ⟨m0, hm0⟩ := matchScan_exists hgood hk
      have hm0ge := (skipScan_some_facts _ _ _ hm0).1
      exact .cons hk hm0 (by omega) (by omega) (stackOk_lt hst) (stackOk_up hgood hst hk hm0)
    · subst h91
      rw [hgoto, hkk]
      obtain ⟨m0, hm0⟩ := matchScan_exists hgood hk
      obtain ⟨j2, hj2, hj2le⟩ := skipScanBug_le_match hgood hk hm0
      obtain rfl : j2 = j := by
        rw [hj2] at hscan
        injection hscan
      have hjge := (skipScan_some_facts _ _ _ hscan).1
      have hjlt := get?_some_lt (skipScan_some_facts _ _ _ hscan).2
      exact stackOk_retarget_skip hgood hst hk hm0 hj2le hjge hjlt
    · rw [hgoto, hkk]
      have hst2 : StackOk A g.k (t :: rest) := hg ▸ hst
      cases hst2 with
      | cons h91b hmb hgkb hkmb hrestb hSb =>
        have htm := (skipScan_some_facts _ _ _ hmb).1
        exact .cons h91b hmb (by omega) (by omega) hrestb hSb
    · rw [hgoto, hkk]
      have hst2 : StackOk A g.k (t :: rest) := hg ▸ hst
      have hklt := get?_some_lt hk
      cases hst2 with
      | cons h91b hmb hgkb hkmb hrestb hSb =>
        rename_i mt
        cases hSb with
        | nil hle2 => exact .nil (by omega)
        | cons h91c hmc hg2c hkmc hrestc hSc =>
          rename_i g2c m2c rest2c
          have hmem := hrestb g2c (List.mem_cons_self g2c _)
          exact .cons h91c hmc (by omega) (by omega) hrestc hSc


/-! ## Claim C6, part 4: a complete program is run the same inside a
concatenation (left phase) -/

theorem stepJump_ne_halt {code : List Nat} {instr : Nat} {g : Cfg}
    (h : stepJump code instr g = .halt) : False := by
  unfold stepJump at h
  repeat' split at h
  all_goals exact StepRes.noConfusion h

theorem stepIo_ne_halt {code : List Nat} {instr : Nat} {g : Cfg}
    (h : stepIo code instr g = .halt) : False := by
  unfold stepIo at h
  repeat' split at h
  all_goals first
    | exact StepRes.noConfusion h
    | exact stepJump_ne_halt h

theorem stepAt_ne_halt {code : List Nat} {w : Bool} {mo instr : Nat} {g : Cfg}
    (h : stepAt code w mo instr g = .halt) : False := by
  unfold stepAt at h
  repeat' split at h
  all_goals first
    | exact StepRes.noConfusion h
    | exact stepIo_ne_halt h

/-- The loop halts exactly when the instruction index left the code. -/
theorem step_halt_iff {code : List Nat} {w : Bool} {mo : Nat} {g : Cfg} :
    step code w mo g = .halt ↔ code.get? g.k = none := by
  constructor
  · intro h
    by_contra hne
    rcases Option.ne_none_iff_exists'.mp hne with ⟨instr, hk⟩
    unfold step at h
    rw [hk] at h
    dsimp only at h
    exact stepAt_ne_halt h
  · intro hk
    unfold step
    rw [hk]

/-- The loop-operator dispatch reads the code only through the skip scan,
which agrees between a structurally valid program and any extension of it. -/
theorem stepJump_agree {A B : List Nat} {instr : Nat} {g : Cfg}
    (hgood : GoodProg A) (hk : instr = 91 → A.get? g.k = some 91) :
    stepJump A instr g = stepJump (A ++ B) instr g := by
  unfold stepJump
  by_cases h91 : instr = 91
  · rw [if_pos h91, if_pos h91]
    by_cases hz : g.mem.getD g.ptr 0 ≠ 0
    · rw [if_pos hz, if_pos hz]
    · rw [if_neg hz, if_neg hz]
      obtain ⟨m0, hm0⟩ := matchScan_exists hgood (hk h91)
      obtain ⟨j, hj, _⟩ := skipScanBug_le_match hgood (hk h91) hm0
      have hjAB : skipScan (A ++ B) (g.k + 2) 0 (A ++ B).length = some j := by
        refine skipScan_fuel_le _ _ _ (skipScan_append _ _ _ hj) _ ?_
        rw [List.length_append]
        omega
      rw [hj, hjAB]
  · rw [if_neg h91, if_neg h91]

theorem stepIo_agree {A B : List Nat} {instr : Nat} {g : Cfg}
    (hgood : GoodProg A) (hk : instr = 91 → A.get? g.k = some 91) :
    stepIo A instr g = stepIo (A ++ B) instr g := by
  unfold stepIo
  by_cases h46 : instr = 46
  · rw [if_pos h46, if_pos h46]
  · rw [if_neg h46, if_neg h46]
    by_cases h44 : instr = 44
    · rw [if_pos h44, if_pos h44]
    · rw [if_neg h44, if_neg h44]
      exact stepJump_agree hgood hk

theorem stepAt_agree {A B : List Nat} {w : Bool} {mo instr : Nat} {g : Cfg}
    (hgood : GoodProg A) (hk : instr = 91 → A.get? g.k = some 91) :
    stepAt A w mo instr g = stepAt (A ++ B) w mo instr g := by
  unfold stepAt
  by_cases hb : mo < g.ops
  · rw [if_pos hb, if_pos hb]
  · rw [if_neg hb, if_neg hb]
    by_cases h43 : instr = 43
    · rw [if_pos h43, if_pos h43]
    · rw [if_neg h43, if_neg h43]
      by_cases h45 : instr = 45
      · rw [if_pos h45, if_pos h45]
      · rw [if_neg h45, if_neg h45]
        by_cases h62 : instr = 62
        · rw [if_pos h62, if_pos h62]
        · rw [if_neg h62, if_neg h62]
          by_cases h60 : instr = 60
          · rw [if_pos h60, if_pos h60]
          · rw [if_neg h60, if_neg h60]
            exact stepIo_agree hgood hk

/-- While the instruction index is inside the left part, one loop
iteration is the same over the left part alone and over the
concatenation. -/
theorem step_agree {A B : List Nat} {w : Bool} {mo : Nat} {g : Cfg}
    (hgood : GoodProg A) (hlt : g.k < A.length) :
    step A w mo g = step (A ++ B) w mo g := by
  unfold step
  rcases hk : A.get? g.k with _ | instr
  · rw [List.get?_eq_none] at hk
    omega
  · have hk2 : (A ++ B).get? g.k = some instr := by
      rw [List.get?_eq_getElem?, List.getElem?_append_left hlt, ← List.get?_eq_getElem?]
      exact hk
    rw [hk2]
    dsimp only
    refine stepAt_agree hgood ?_
    intro h91
    rw [bump_k]
    rw [h91] at hk
    exact hk

/-- Running a structurally valid complete program as the left part of a
concatenation: errors agree with running it alone, and a successful solo
run puts the concatenation run at the start of the right part with an
empty jump stack and the fuel spent on the left part accounted. -/
theorem run_sim_left {A B : List Nat} {w : Bool} {mo : Nat} (hgood : GoodProg A) :
    ∀ (fuel : Nat) (g : Cfg), StackOk A g.k g.goto →
      (∀ gf e, run A w mo fuel g = (gf, some e) → run (A ++ B) w mo fuel g = (gf, some e)) ∧
      (∀ gf, run A w mo fuel g = (gf, none) →
        gf.k = A.length ∧ gf.goto = [] ∧
        ∃ f2, f2 ≤ fuel ∧ gf.ops + f2 = g.ops + fuel ∧
          run (A ++ B) w mo fuel g = run (A ++ B) w mo f2 gf) := by
  intro fuel
  induction fuel with
  | zero =>
    intro g hst
    constructor
    · intro gf e h
      exact h
    · intro gf h
      exact absurd (congrArg Prod.snd h) (by simp [run])
  | succ n ih =>
    intro g hst
    have hrunA : run A w mo (n + 1) g = (match step A w mo g with
      | .halt => (g, none)
      | .fail e g2 => (g2, some e)
      | .next g2 => run A w mo n g2) := rfl
    have hrunAB : run (A ++ B) w mo (n + 1) g = (match step (A ++ B) w mo g with
      | .halt => (g, none)
      | .fail e g2 => (g2, some e)
      | .next g2 => run (A ++ B) w mo n g2) := rfl
    by_cases hlt : g.k < A.length
    · have hagree := @step_agree A B w mo g hgood hlt
      constructor
      · intro gf e h
        rw [hrunA] at h
        rw [hrunAB, ← hagree]
        rcases hs : step A w mo g with _ | ⟨e2, g2⟩ | g2 <;> rw [hs] at h <;> dsimp only at h ⊢
        · exact h
        · exact h
        · exact (ih g2 (step_stackOk hgood hst hs)).1 gf e h
      · intro gf h
        rw [hrunA] at h
        rw [hrunAB, ← hagree]
        rcases hs : step A w mo g with _ | ⟨e2, g2⟩ | g2 <;> rw [hs] at h <;> dsimp only at h ⊢
        · obtain rfl : g = gf := congrArg Prod.fst h
          have hknone := step_halt_iff.mp hs
          rw [List.get?_eq_none] at hknone
          omega
        · exact absurd (congrArg Prod.snd h) (by simp)
        · obtain ⟨h1, h2, f2, hf2, hops, hrun⟩ := (ih g2 (step_stackOk hgood hst hs)).2 gf h
          have hops2 := step_next_ops hs
          exact ⟨h1, h2, f2, by omega, by omega, hrun⟩
    · have hkeq : g.k = A.length := by
        have := stackOk_le_len hst
        omega
      have hgoto : g.goto = [] := stackOk_at_len (hkeq ▸ hst)
      have hhalt : step A w mo g = .halt := by
        rw [step_halt_iff, List.get?_eq_none]
        omega
      constructor
      · intro gf e h
        rw [hrunA, hhalt] at h
        exact absurd (congrArg Prod.snd h) (by simp)
      · intro gf h
        rw [hrunA, hhalt] at h
        obtain rfl : g = gf := congrArg Prod.fst h
        exact ⟨hkeq, hgoto, n + 1, le_refl _, by omega, rfl⟩


/-! ## Claim C6, part 5: the right part of a concatenation runs shifted -/

/-- With enough fuel relative to the budget, the fuel value is
irrelevant: the budget check stops the loop first. -/
theorem run_fuel_irrelevant {code : List Nat} {w : Bool} {mo : Nat} :
    ∀ (f1 f2 : Nat) (g : Cfg), g.ops ≤ mo → mo + 1 ≤ g.ops + f1 → mo + 1 ≤ g.ops + f2 →
      run code w mo f1 g = run code w mo f2 g := by
  intro f1
  induction f1 with
  | zero => intro f2 g h1 h2 h3; omega
  | succ n ih =>
    intro f2 g h1 h2 h3
    obtain ⟨m, rfl⟩ : ∃ m, f2 = m + 1 := ⟨f2 - 1, by omega⟩
    have e1 : run code w mo (n + 1) g = (match step code w mo g with
      | .halt => (g, none)
      | .fail e g2 => (g2, some e)
      | .next g2 => run code w mo n g2) := rfl
    have e2 : run code w mo (m + 1) g = (match step code w mo g with
      | .halt => (g, none)
      | .fail e g2 => (g2, some e)
      | .next g2 => run code w mo m g2) := rfl
    rw [e1, e2]
    rcases hs : step code w mo g with _ | ⟨e, g2⟩ | g2 <;> dsimp only
    have hops := step_next_ops hs
    exact ih m g2 (by omega) (by omega) (by omega)

@[simp] theorem shiftCfg_k (n dv dp dio dj dops : Nat) (g : Cfg) :
    (shiftCfg n dv dp dio dj dops g).k = n + g.k := rfl

@[simp] theorem shiftCfg_mem (n dv dp dio dj dops : Nat) (g : Cfg) :
    (shiftCfg n dv dp dio dj dops g).mem = g.mem := rfl

@[simp] theorem shiftCfg_ptr (n dv dp dio dj dops : Nat) (g : Cfg) :
    (shiftCfg n dv dp dio dj dops g).ptr = g.ptr := rfl

@[simp] theorem shiftCfg_goto (n dv dp dio dj dops : Nat) (g : Cfg) :
    (shiftCfg n dv dp dio dj dops g).goto = g.goto.map (fun x => n + x) := rfl

@[simp] theorem shiftCfg_inp (n dv dp dio dj dops : Nat) (g : Cfg) :
    (shiftCfg n dv dp dio dj dops g).inp = g.inp := rfl

@[simp] theorem shiftCfg_outp (n dv dp dio dj dops : Nat) (g : Cfg) :
    (shiftCfg n dv dp dio dj dops g).outp = g.outp := rfl

@[simp] theorem shiftCfg_ops (n dv dp dio dj dops : Nat) (g : Cfg) :
    (shiftCfg n dv dp dio dj dops g).ops = g.ops + dops := rfl

/-- Counter bumping commutes with repositioning. -/
theorem bump_shiftCfg (instr n dv dp dio dj dops : Nat) (g : Cfg) :
    bump instr (shiftCfg n dv dp dio dj dops g) =
      shiftCfg n dv dp dio dj dops (bump instr g) := by
  simp [bump, shiftCfg]
  omega

/-- Lookup in a concatenation past the left part. -/
theorem get?_append_shift {A B : List Nat} (k : Nat) :
    (A ++ B).get? (A.length + k) = B.get? k := by
  rw [List.get?_eq_getElem?, List.getElem?_append_right (by omega)]
  have : A.length + k - A.length = k := by omega
  rw [this, ← List.get?_eq_getElem?]

/-- When the repositioned total counter sits exactly at the budget, the
next concatenation step fails with `RuntimeError`. -/
theorem step_shift_re {A B : List Nat} {w : Bool} {mo : Nat}
    {dv dp dio dj dops : Nat} {gb : Cfg} {instr : Nat}
    (hk : B.get? gb.k = some instr) (hdiv : gb.ops + dops = mo) :
    step (A ++ B) w mo (shiftCfg A.length dv dp dio dj dops gb) =
      .fail .runtimeError (bump instr (shiftCfg A.length dv dp dio dj dops gb)) := by
  unfold step
  have hk2 : (A ++ B).get? (shiftCfg A.length dv dp dio dj dops gb).k = some instr := by
    rw [shiftCfg_k, get?_append_shift]
    exact hk
  rw [hk2]
  dsimp only
  unfold stepAt
  rw [if_pos (by simp [bump]; omega)]


/-- The loop-operator dispatch commutes with repositioning past a prefix. -/
theorem stepJump_shift {A B : List Nat} {instr : Nat} {dv dp dio dj dops : Nat} {g : Cfg}
    (hgoodB : GoodProg B) (hk91 : instr = 91 → B.get? g.k = some 91) :
    stepJump (A ++ B) instr (shiftCfg A.length dv dp dio dj dops g) =
      (match stepJump B instr g with
       | .halt => .halt
       | .fail e gf => .fail e (shiftCfg A.length dv dp dio dj dops gf)
       | .next gn => .next (shiftCfg A.length dv dp dio dj dops gn)) := by
  unfold stepJump
  by_cases h91 : instr = 91
  · rw [if_pos h91, if_pos h91]
    by_cases hz : g.mem.getD g.ptr 0 ≠ 0
    · rw [if_pos hz, if_pos (by simpa using hz)]
      dsimp only
      congr 1
      all_goals simp [shiftCfg]
      all_goals omega
    · rw [if_neg hz, if_neg (by simpa using hz)]
      obtain ⟨m0, hm0⟩ := matchScan_exists hgoodB (hk91 h91)
      obtain ⟨j, hj, _⟩ := skipScanBug_le_match hgoodB (hk91 h91) hm0
      have hjAB : skipScan (A ++ B) ((shiftCfg A.length dv dp dio dj dops g).k + 2) 0
          (A ++ B).length = some (A.length + j) := by
        have h1 := skipScan_shift (A := A) B.length (g.k + 2) 0 hj
        have hpos : (shiftCfg A.length dv dp dio dj dops g).k + 2 = A.length + (g.k + 2) := by
          rw [shiftCfg_k]
          omega
        rw [hpos]
        refine skipScan_fuel_le _ _ _ h1 _ ?_
        rw [List.length_append]
        omega
      rw [hj, hjAB]
      dsimp only
      congr 1
      all_goals simp [shiftCfg]
      all_goals omega
  · rw [if_neg h91, if_neg h91]
    by_cases h93 : instr = 93
    · rw [if_pos h93, if_pos h93]
      rcases hg : g.goto with _ | ⟨t, rest⟩
      · rw [show (shiftCfg A.length dv dp dio dj dops g).goto = [] from by
          rw [shiftCfg_goto, hg]; rfl]
      · rw [show (shiftCfg A.length dv dp dio dj dops g).goto =
          (A.length + t) :: rest.map (fun x => A.length + x) from by
          rw [shiftCfg_goto, hg]; rfl]
        dsimp only
        by_cases hz : g.mem.getD g.ptr 0 ≠ 0
        · rw [if_pos hz, if_pos (by simpa using hz)]
          dsimp only
          congr 1
          all_goals simp [shiftCfg]
          all_goals omega
        · rw [if_neg hz, if_neg (by simpa using hz)]
          dsimp only
          congr 1
          all_goals simp [shiftCfg, hg]
          all_goals omega
    · rw [if_neg h93, if_neg h93]
      dsimp only
      congr 1
      all_goals simp [shiftCfg]
      all_goals omega

/-- The stream-operator dispatch commutes with repositioning. -/
theorem stepIo_shift {A B : List Nat} {instr : Nat} {dv dp dio dj dops : Nat} {g : Cfg}
    (hgoodB : GoodProg B) (hk91 : instr = 91 → B.get? g.k = some 91) :
    stepIo (A ++ B) instr (shiftCfg A.length dv dp dio dj dops g) =
      (match stepIo B instr g with
       | .halt => .halt
       | .fail e gf => .fail e (shiftCfg A.length dv dp dio dj dops gf)
       | .next gn => .next (shiftCfg A.length dv dp dio dj dops gn)) := by
  unfold stepIo
  by_cases h46 : instr = 46
  · rw [if_pos h46, if_pos h46]
    dsimp only
    congr 1
    all_goals simp [shiftCfg]
    all_goals omega
  · rw [if_neg h46, if_neg h46]
    by_cases h44 : instr = 44
    · rw [if_pos h44, if_pos h44]
      rcases hi : g.inp with _ | ⟨b, rest⟩
      · rw [show (shiftCfg A.length dv dp dio dj dops g).inp = [] from by rw [shiftCfg_inp, hi]]
      · rw [show (shiftCfg A.length dv dp dio dj dops g).inp = b :: rest from by
          rw [shiftCfg_inp, hi]]
        dsimp only
        congr 1
        all_goals simp [shiftCfg]
        all_goals omega
    · rw [if_neg h44, if_neg h44]
      exact stepJump_shift hgoodB hk91

/-- The dispatch after the budget check commutes with repositioning when
the repositioned counter is still under the budget. -/
theorem stepAt_shift {A B : List Nat} {w : Bool} {mo instr : Nat}
    {dv dp dio dj dops : Nat} {g : Cfg}
    (hgoodB : GoodProg B) (hk91 : instr = 91 → B.get? g.k = some 91)
    (hbud : g.ops + dops ≤ mo) :
    stepAt (A ++ B) w mo instr (shiftCfg A.length dv dp dio dj dops g) =
      (match stepAt B w mo instr g with
       | .halt => .halt
       | .fail e gf => .fail e (shiftCfg A.length dv dp dio dj dops gf)
       | .next gn => .next (shiftCfg A.length dv dp dio dj dops gn)) := by
  unfold stepAt
  rw [if_neg (show ¬ mo < (shiftCfg A.length dv dp dio dj dops g).ops from by
    rw [shiftCfg_ops]; omega)]
  rw [if_neg (show ¬ mo < g.ops from by omega)]
  by_cases h43 : instr = 43
  · rw [if_pos h43, if_pos h43]
    by_cases hov : g.mem.getD g.ptr 0 = 255 ∧ w = false
    · rw [if_pos hov, if_pos (by simpa using hov)]
    · rw [if_neg hov, if_neg (by simpa using hov)]
      dsimp only
      congr 1
      all_goals simp [shiftCfg]
      all_goals omega
  · rw [if_neg h43, if_neg h43]
    by_cases h45 : instr = 45
    · rw [if_pos h45, if_pos h45]
      by_cases hov : g.mem.getD g.ptr 0 = 0 ∧ w = false
      · rw [if_pos hov, if_pos (by simpa using hov)]
      · rw [if_neg hov, if_neg (by simpa using hov)]
        dsimp only
        congr 1
        all_goals simp [shiftCfg]
        all_goals omega
    · rw [if_neg h45, if_neg h45]
      by_cases h62 : instr = 62
      · rw [if_pos h62, if_pos h62]
        by_cases hedge : g.ptr = g.mem.length - 1
        · rw [if_pos hedge, if_pos (by simpa using hedge)]
        · rw [if_neg hedge, if_neg (by simpa using hedge)]
          dsimp only
          congr 1
          all_goals simp [shiftCfg]
          all_goals omega
      · rw [if_neg h62, if_neg h62]
        by_cases h60 : instr = 60
        · rw [if_pos h60, if_pos h60]
          by_cases hedge : g.ptr = 0
          · rw [if_pos hedge, if_pos (by simpa using hedge)]
          · rw [if_neg hedge, if_neg (by simpa using hedge)]
            dsimp only
            congr 1
            all_goals simp [shiftCfg]
            all_goals omega
        · rw [if_neg h60, if_neg h60]
          exact stepIo_shift hgoodB hk91

/-- One loop iteration over the concatenation, started past the left part
with the counter strictly under the budget, is the repositioned iteration
over the right part alone. -/
theorem step_shift_eq {A B : List Nat} {w : Bool} {mo : Nat}
    {dv dp dio dj dops : Nat} {gb : Cfg} (hgoodB : GoodProg B)
    (hlt : gb.ops + dops < mo) :
    step (A ++ B) w mo (shiftCfg A.length dv dp dio dj dops gb) =
      (match step B w mo gb with
       | .halt => .halt
       | .fail e gf => .fail e (shiftCfg A.length dv dp dio dj dops gf)
       | .next gn => .next (shiftCfg A.length dv dp dio dj dops gn)) := by
  unfold step
  rcases hk : B.get? gb.k with _ | instr
  · rw [show (A ++ B).get? (shiftCfg A.length dv dp dio dj dops gb).k = none from by
      rw [shiftCfg_k, get?_append_shift]; exact hk]
  · rw [show (A ++ B).get? (shiftCfg A.length dv dp dio dj dops gb).k = some instr from by
      rw [shiftCfg_k, get?_append_shift]; exact hk]
    dsimp only
    rw [bump_shiftCfg]
    have hbud2 : (bump instr gb).ops + dops ≤ mo := by
      rw [bump_ops]
      omega
    refine stepAt_shift hgoodB ?_ hbud2
    intro h91
    rw [bump_k]
    rw [h91] at hk
    exact hk

/-- Running the right part of a concatenation from a configuration
repositioned past the left part: either the concatenation run stops on the
budget (`RuntimeError`), or it mirrors the run of the right part alone with
every configuration repositioned. -/
theorem run_shift {A B : List Nat} {w : Bool} {mo : Nat}
    {dv dp dio dj dops : Nat} (hgoodB : GoodProg B) :
    ∀ (fuel : Nat) (gb : Cfg), gb.ops + dops ≤ mo →
      (run (A ++ B) w mo fuel (shiftCfg A.length dv dp dio dj dops gb)).2 =
        some .runtimeError ∨
      ∃ gbf r, run B w mo fuel gb = (gbf, r) ∧
        run (A ++ B) w mo fuel (shiftCfg A.length dv dp dio dj dops gb) =
          (shiftCfg A.length dv dp dio dj dops gbf, r) := by
  intro fuel
  induction fuel with
  | zero =>
    intro gb hbud
    left
    rfl
  | succ n ih =>
    intro gb hbud
    have e1 : run (A ++ B) w mo (n + 1) (shiftCfg A.length dv dp dio dj dops gb) =
        (match step (A ++ B) w mo (shiftCfg A.length dv dp dio dj dops gb) with
         | .halt => (shiftCfg A.length dv dp dio dj dops gb, none)
         | .fail e g2 => (g2, some e)
         | .next g2 => run (A ++ B) w mo n g2) := rfl
    have e2 : run B w mo (n + 1) gb =
        (match step B w mo gb with
         | .halt => (gb, none)
         | .fail e g2 => (g2, some e)
         | .next g2 => run B w mo n g2) := rfl
    by_cases hdiv : gb.ops + dops = mo
    · rcases hk : B.get? gb.k with _ | instr
      · right
        refine ⟨gb, none, ?_, ?_⟩
        · rw [e2, show step B w mo gb = .halt from by unfold step; rw [hk]]
        · rw [e1]
          rw [show step (A ++ B) w mo (shiftCfg A.length dv dp dio dj dops gb) = .halt from by
            unfold step
            rw [show (A ++ B).get? (shiftCfg A.length dv dp dio dj dops gb).k = none from by
              rw [shiftCfg_k, get?_append_shift]; exact hk]]
      · left
        rw [e1, step_shift_re hk hdiv]
    · have hlt : gb.ops + dops < mo := by omega
      have hse := @step_shift_eq A B w mo dv dp dio dj dops gb hgoodB hlt
      rcases hs : step B w mo gb with _ | ⟨e, gf⟩ | gn <;> rw [hs] at hse <;> dsimp only at hse
      · right
        exact ⟨gb, none, by rw [e2, hs], by rw [e1, hse]⟩
      · right
        exact ⟨gf, some e, by rw [e2, hs], by rw [e1, hse]⟩
      · have hops := step_next_ops hs
        have hb2 : gn.ops + dops ≤ mo := by omega
        rcases ih gn hb2 with hre | ⟨gbf, r, hB, hAB⟩
        · left
          rw [e1, hse]
          exact hre
        · right
          refine ⟨gbf, r, ?_, ?_⟩
          · rw [e2, hs]
            exact hB
          · rw [e1, hse]
            exact hAB

/-! ## Claim C6, part 6: parsing a concatenation of complete fragments -/

/-- A successful token step is unchanged, beyond carrying the prefix
along, when an already-accumulated prefix is prepended to the buffer. -/
theorem parseTok_prepend {c t c2 : Nat} {buf buf2 : List Nat} (P : List Nat)
    (h : parseTok c buf t = .ok (c2, buf2)) :
    parseTok c (P ++ buf) t = .ok (c2, P ++ buf2) := by
  unfold parseTok at h ⊢
  by_cases hop : isOpTok t
  · rw [if_neg (by simpa using hop)] at h ⊢
    by_cases h93 : t = 93
    · rw [if_pos h93] at h ⊢
      rcases hlast : buf.getLast? with _ | prev <;> rw [hlast] at h
      · exact Except.noConfusion h
      · have hbne : buf ≠ [] := by
          intro he
          rw [he] at hlast
          exact Option.noConfusion hlast
        rw [List.getLast?_append_of_ne_nil P hbne, hlast]
        dsimp only at h ⊢
        split at h
        · exact Except.noConfusion h
        · rename_i hguard
          rw [if_neg hguard]
          injection h with h1
          injection h1 with e1 e2
          subst e1
          subst e2
          rw [List.append_assoc]
    · rw [if_neg h93] at h ⊢
      by_cases h91 : t = 91
      · rw [if_pos h91] at h ⊢
        injection h with h1
        injection h1 with e1 e2
        subst e1
        subst e2
        rw [List.append_assoc]
      · rw [if_neg h91] at h ⊢
        injection h with h1
        injection h1 with e1 e2
        subst e1
        subst e2
        rw [List.append_assoc]
  · rw [if_pos (by simpa using hop)] at h ⊢
    injection h with h1
    injection h1 with e1 e2
    subst e1
    subst e2
    rfl

/-- The token loop, run from a carried buffer, commutes with prepending
an already-accumulated prefix to that buffer. -/
theorem parseRun_prepend (P : List Nat) :
    ∀ (code : List Nat) (c : Nat) (buf : List Nat) (c2 : Nat) (buf2 : List Nat),
      parseRun c buf code = .ok (c2, buf2) →
      parseRun c (P ++ buf) code = .ok (c2, P ++ buf2) := by
  intro code
  induction code with
  | nil =>
    intro c buf c2 buf2 h
    injection h with h1
    injection h1 with e1 e2
    subst e1
    subst e2
    rfl
  | cons t ts ih =>
    intro c buf c2 buf2 h
    rw [show parseRun c buf (t :: ts) = (match parseTok c buf t with
      | .error e => .error e
      | .ok (c3, b3) => parseRun c3 b3 ts) from rfl] at h
    rw [show parseRun c (P ++ buf) (t :: ts) = (match parseTok c (P ++ buf) t with
      | .error e => .error e
      | .ok (c3, b3) => parseRun c3 b3 ts) from rfl]
    rcases hpt : parseTok c buf t with e | ⟨c3, b3⟩ <;> rw [hpt] at h
    · exact Except.noConfusion h
    · rw [parseTok_prepend P hpt]
      dsimp only at h ⊢
      exact ih c3 b3 c2 buf2 h

/-- A one-shot parse returning a complete program leaves the token loop
at counter zero with that program as the buffer. -/
theorem parseFresh_ok_run {C P : List Nat}
    (h : parseFresh C = .ok (some P)) : parseRun 0 [] C = .ok (0, P) := by
  rw [parseFresh_eq] at h
  rcases hr : parseRun 0 [] C with e | ⟨c, buf⟩ <;> rw [hr] at h
  · exact Except.noConfusion h
  · dsimp only at h
    by_cases hc : 0 < c
    · rw [if_pos hc] at h
      injection h with h1
      exact Option.noConfusion h1
    · rw [if_neg hc] at h
      injection h with h1
      injection h1 with h2
      rw [← h2, show c = 0 from by omega]

/-- Two strings each parsing to a complete program concatenate to a
string parsing to the concatenation of the two programs. -/
theorem parseFresh_concat {A0 B0 A B : List Nat}
    (hA : parseFresh A0 = .ok (some A)) (hB : parseFresh B0 = .ok (some B)) :
    parseFresh (A0 ++ B0) = .ok (some (A ++ B)) := by
  have hA2 := parseFresh_ok_run hA
  have hB2 : parseRun 0 A B0 = .ok (0, A ++ B) := by
    have hpre := parseRun_prepend A B0 0 [] 0 B (parseFresh_ok_run hB)
    simpa using hpre
  rw [parseFresh_eq, parseRun_append, hA2]
  dsimp only
  rw [hB2]
  simp

/-- A complete parse yields some program. -/
theorem isCompleteParse_ex {f : List Nat} (h : isCompleteParse f = true) :
    ∃ p, parseFresh f = .ok (some p) := by
  unfold isCompleteParse at h
  rcases hp : parseFresh f with e | r <;> rw [hp] at h
  · exact Bool.noConfusion h
  · rcases r with _ | p
    · exact Bool.noConfusion h
    · exact ⟨p, rfl⟩

/-- The concatenation of complete fragments parses to a complete
program. -/
theorem join_parseFresh {frags : List (List Nat)}
    (hc : ∀ f ∈ frags, isCompleteParse f = true) :
    ∃ P, parseFresh frags.join = .ok (some P) := by
  induction frags with
  | nil => exact ⟨[], rfl⟩
  | cons c cs ih =>
    obtain ⟨p, hp⟩ := isCompleteParse_ex (hc c (by simp))
    obtain ⟨P, hP⟩ := ih (fun f hf => hc f (List.mem_cons_of_mem c hf))
    refine ⟨p ++ P, ?_⟩
    rw [show (c :: cs).join = c ++ cs.join from rfl]
    exact parseFresh_concat hp hP

/-! ## Claim C6, part 7: one exec call split at a fragment boundary -/

/-- An `exec` call on the empty string succeeds immediately and leaves
the instance unchanged. -/
theorem exec_nil_self (i : Interp) : i.exec [] = (.ok (metricsOf (mkCfg i)), i) := rfl

/-- The configuration a successful left-part run stops in, its stack
empty and its cursor at the end of the left part, is the repositioning of
the fresh configuration of the committed instance. -/
theorem shiftCfg_reconstruct {A : List Nat} {gf : Cfg} {i1 : Interp}
    (hk : gf.k = A.length) (hgoto : gf.goto = [])
    (hmem : i1.mem = gf.mem) (hptr : i1.pointer = gf.ptr)
    (hinp : i1.inp = gf.inp) (houtp : i1.outp = gf.outp) :
    shiftCfg A.length gf.vc gf.pc gf.ioc gf.jc gf.ops (mkCfg i1) = gf := by
  obtain ⟨k, mem, ptr, goto, inp, outp, vc, pc, ioc, jc, ops⟩ := gf
  simp only at hk hgoto hmem hptr hinp houtp
  simp [shiftCfg, mkCfg, hk, hgoto, hmem, hptr, hinp, houtp]

/-- Splitting one `exec` call in two at a fragment boundary: provided the
single concatenated call does not stop on the per-call op budget, an error
in the first fragment is the concatenated call's error with the same
committed instance, and otherwise the second call, made on the instance
committed by the first, reproduces the concatenated call's final instance
and its outcome kind. -/
theorem exec_split {i : Interp} {A0 B0 A B : List Nat}
    (hA : parseFresh A0 = .ok (some A)) (hB : parseFresh B0 = .ok (some B))
    (hnre : (i.exec (A0 ++ B0)).1 ≠ .error .runtimeError) :
    (∃ e i1, i.exec A0 = (.error e, i1) ∧ i.exec (A0 ++ B0) = (.error e, i1)) ∨
    (∃ m i1, i.exec A0 = (.ok m, i1) ∧
      ((∃ m2 m3, i1.exec B0 = (.ok m2, (i.exec (A0 ++ B0)).2) ∧
          (i.exec (A0 ++ B0)).1 = .ok m3) ∨
       (∃ e, i1.exec B0 = (.error e, (i.exec (A0 ++ B0)).2) ∧
          (i.exec (A0 ++ B0)).1 = .error e))) := by
  have hgoodA := parseFresh_good hA
  have hgoodB := parseFresh_good hB
  have hAB := parseFresh_concat hA hB
  have hsim := @run_sim_left A B i.wrap_values i.max_ops hgoodA
    (i.max_ops + 1) (mkCfg i) (StackOk.nil (by simp [mkCfg]))
  rcases hrA : run A i.wrap_values i.max_ops (i.max_ops + 1) (mkCfg i) with ⟨gf, res⟩
  rcases res with _ | e
  · obtain ⟨hk, hgoto, f2, hf2le, hf2, hruneq⟩ := hsim.2 gf hrA
    have hgf_le : gf.ops ≤ i.max_ops :=
      run_success_ops_le (i.max_ops + 1) (mkCfg i) gf hrA (by simp [mkCfg])
    have hf2eq : gf.ops + f2 = i.max_ops + 1 := by simpa [mkCfg] using hf2
    have hexecA : i.exec A0 = (.ok (metricsOf gf),
        { i with mem := gf.mem, pointer := gf.ptr, inp := gf.inp, outp := gf.outp }) :=
      exec_eq_run hA hrA
    have hrec : shiftCfg A.length gf.vc gf.pc gf.ioc gf.jc gf.ops
        (mkCfg { i with mem := gf.mem, pointer := gf.ptr, inp := gf.inp, outp := gf.outp }) =
        gf :=
      shiftCfg_reconstruct hk hgoto rfl rfl rfl rfl
    have hshift := @run_shift A B i.wrap_values i.max_ops
      gf.vc gf.pc gf.ioc gf.jc gf.ops hgoodB
      (i.max_ops + 1)
      (mkCfg { i with mem := gf.mem, pointer := gf.ptr, inp := gf.inp, outp := gf.outp })
      (by simp only [mkCfg]; omega)
    rw [hrec] at hshift
    have hfuel : run (A ++ B) i.wrap_values i.max_ops f2 gf =
        run (A ++ B) i.wrap_values i.max_ops (i.max_ops + 1) gf :=
      run_fuel_irrelevant f2 (i.max_ops + 1) gf hgf_le (by omega) (by omega)
    have hCrun : run (A ++ B) i.wrap_values i.max_ops (i.max_ops + 1) (mkCfg i) =
        run (A ++ B) i.wrap_values i.max_ops (i.max_ops + 1) gf := by
      rw [hruneq, hfuel]
    rcases hshift with hre | ⟨gbf, r, hrB, hrAB⟩
    · exfalso
      apply hnre
      rcases hrr : run (A ++ B) i.wrap_values i.max_ops (i.max_ops + 1) gf with ⟨gg, rr⟩
      rw [hrr] at hre
      simp only at hre
      subst hre
      have hex := exec_eq_run hAB (g := gg) (r := some .runtimeError)
        (by rw [hCrun]; exact hrr)
      rw [hex]
    · right
      have hexecB := exec_eq_run
        (i := { i with mem := gf.mem, pointer := gf.ptr, inp := gf.inp, outp := gf.outp })
        hB (g := gbf) (r := r) hrB
      have hexecC := exec_eq_run hAB
        (g := shiftCfg A.length gf.vc gf.pc gf.ioc gf.jc gf.ops gbf) (r := r)
        (by rw [hCrun]; exact hrAB)
      refine ⟨metricsOf gf,
        { i with mem := gf.mem, pointer := gf.ptr, inp := gf.inp, outp := gf.outp },
        hexecA, ?_⟩
      rcases r with _ | e
      · left
        refine ⟨metricsOf gbf,
          metricsOf (shiftCfg A.length gf.vc gf.pc gf.ioc gf.jc gf.ops gbf), ?_, ?_⟩
        · rw [hexecB, hexecC]
          rfl
        · rw [hexecC]
      · right
        refine ⟨e, ?_, ?_⟩
        · rw [hexecB, hexecC]
          rfl
        · rw [hexecC]
  · left
    have hCrunE := hsim.1 gf e hrA
    exact ⟨e, { i with mem := gf.mem, pointer := gf.ptr, inp := gf.inp, outp := gf.outp },
      exec_eq_run hA hrA, exec_eq_run hAB hCrunE⟩

/-- The op budget is per `exec` call, so splitting a program into
fragments can change the outcome: with `max_ops = 3`, running the
complete fragment `"++"` twice succeeds and leaves the cell at 4, while
the single call on the concatenation `"++++"` stops on the budget with
`RuntimeError` and leaves the cell at 3. -/
theorem fragment_split_budget_counterexample :
    isCompleteParse [43, 43] = true ∧
    execList (Interp.mk [0] 0 [] [] false 3) [[43, 43], [43, 43]] =
      (.ok (), Interp.mk [4] 0 [] [] false 3) ∧
    (Interp.mk [0] 0 [] [] false 3).exec (([43, 43] : List Nat) ++ [43, 43]) =
      (.error .runtimeError, Interp.mk [3] 0 [] [] false 3) :=
  ⟨rfl, rfl, rfl⟩

/-- C6 (corrected): for every engine instance and every split of a
program into complete fragments, running the fragments as successive
`exec` calls matches running the concatenation in one `exec` call —
same final tape, pointer and streams, success for success, and the same
exception for an exception — provided the single concatenated call does
not stop on the per-call op budget (`RuntimeError`); the counter resets
at each call, so the budget itself is not split-invariant. -/
theorem fragment_split_equiv :
    ∀ (frags : List (List Nat)) (i : Interp),
      (∀ f ∈ frags, isCompleteParse f = true) →
      (i.exec frags.join).1 ≠ .error .runtimeError →
      (execList i frags).2 = (i.exec frags.join).2 ∧
      ((execList i frags).1 = .ok () ↔ ∃ m, (i.exec frags.join).1 = .ok m) ∧
      (∀ e, (execList i frags).1 = .error e ↔ (i.exec frags.join).1 = .error e) := by
  intro frags
  induction frags with
  | nil =>
    intro i _ _
    rw [show (List.join ([] : List (List Nat))) = [] from rfl, exec_nil_self]
    refine ⟨rfl, by simp [execList], ?_⟩
    intro e
    simp [execList]
  | cons c cs ih =>
    intro i hc hnre
    obtain ⟨A, hA⟩ := isCompleteParse_ex (hc c (by simp))
    obtain ⟨B, hB⟩ := join_parseFresh (fun f hf => hc f (List.mem_cons_of_mem c hf))
    have hjoin : (c :: cs).join = c ++ cs.join := rfl
    rw [hjoin] at hnre ⊢
    have hstep : execList i (c :: cs) = (match i.exec c with
        | (.ok _, i2) => execList i2 cs
        | (.error e, i2) => (.error e, i2)) := rfl
    rcases exec_split hA hB hnre with ⟨e, i1, hA1, hC1⟩ | ⟨m, i1, hA1, hrest⟩
    · rw [hstep, hA1, hC1]
      dsimp only
      refine ⟨rfl, by simp, ?_⟩
      intro e2
      simp
    · rw [hstep, hA1]
      dsimp only
      rcases hrest with ⟨m2, m3, hB1, hC1⟩ | ⟨e, hB1, hC1⟩
      · have hnre2 : (i1.exec cs.join).1 ≠ .error .runtimeError := by
          rw [hB1]
          simp
        obtain ⟨h2, hok, herr⟩ := ih i1 (fun f hf => hc f (List.mem_cons_of_mem c hf)) hnre2
        refine ⟨?_, ?_, ?_⟩
        · rw [h2, hB1]
        · rw [hok, hB1, hC1]
          simp
        · intro e2
          rw [herr e2, hB1, hC1]
          simp
      · have hne : e ≠ .runtimeError := by
          intro he
          subst he
          exact hnre hC1
        have hnre2 : (i1.exec cs.join).1 ≠ .error .runtimeError := by
          rw [hB1]
          simpa using hne
        obtain ⟨h2, hok, herr⟩ := ih i1 (fun f hf => hc f (List.mem_cons_of_mem c hf)) hnre2
        have hLe : (execList i1 cs).1 = .error e := (herr e).mpr (by rw [hB1])
        refine ⟨?_, ?_, ?_⟩
        · rw [h2, hB1]
        · rw [hLe, hC1]
          simp
        · intro e2
          rw [herr e2, hB1, hC1]

/-- The fragment-splitting equivalence at the spec's own example:
`"+++"` then `"[>.++<-]>"` then `".<"` on a fresh two-cell engine matches
the single concatenated call, which succeeds well under the budget. -/
theorem fragment_split_equiv_witness :
    isCompleteParse [43, 43, 43] = true ∧
    isCompleteParse [91, 62, 46, 43, 43, 60, 45, 93, 62] = true ∧
    isCompleteParse [46, 60] = true ∧
    ((Interp.mk [0, 0] 0 [] [] false 100).exec
        ([[43, 43, 43], [91, 62, 46, 43, 43, 60, 45, 93, 62], [46, 60]] :
          List (List Nat)).join).1 = Except.ok (Metrics.mk 12 8 4 4 28) ∧
    (execList (Interp.mk [0, 0] 0 [] [] false 100)
        [[43, 43, 43], [91, 62, 46, 43, 43, 60, 45, 93, 62], [46, 60]]).2 =
      ((Interp.mk [0, 0] 0 [] [] false 100).exec
        ([[43, 43, 43], [91, 62, 46, 43, 43, 60, 45, 93, 62], [46, 60]] :
          List (List Nat)).join).2 := by
  have hcp : ∀ f ∈ ([[43, 43, 43], [91, 62, 46, 43, 43, 60, 45, 93, 62], [46, 60]] :
      List (List Nat)), isCompleteParse f = true := by
    intro f hf
    fin_cases hf <;> rfl
  have hok : ((Interp.mk [0, 0] 0 [] [] false 100).exec
      ([[43, 43, 43], [91, 62, 46, 43, 43, 60, 45, 93, 62], [46, 60]] :
        List (List Nat)).join).1 = Except.ok (Metrics.mk 12 8 4 4 28) := rfl
  have hnre : ((Interp.mk [0, 0] 0 [] [] false 100).exec
      ([[43, 43, 43], [91, 62, 46, 43, 43, 60, 45, 93, 62], [46, 60]] :
        List (List Nat)).join).1 ≠ Except.error PyExc.runtimeError := by
    intro h
    rw [hok] at h
    exact Except.noConfusion h
  exact ⟨rfl, rfl, rfl, hok,
    (fragment_split_equiv [[43, 43, 43], [91, 62, 46, 43, 43, 60, 45, 93, 62], [46, 60]]
      (Interp.mk [0, 0] 0 [] [] false 100) hcp hnre).1⟩

end PyBf
